import Mathlib

/-
Verification of the censusalign reallocation and apportionment engine.

The model is a shallow embedding of the pandas pipelines in
src/censusalign/blockify.py (Blockify.hamilton_floor, Blockify.rollup),
src/censusalign/graphify.py (Graphify.hamilton_floor, Graphify.blockify) and
src/censusalign/cultivate.py (Cultivate.hamilton_floor, Cultivate.blockify).

Modelling conventions:
  * Table rows are structures; a missing cell (pandas NaN) is an Option none.
  * Floats are modelled by rationals.  The replace inf / dropna step after the
    division (blockify.py lines 77-78) is modelled by making the raw division
    return none exactly when the divisor is zero, the one way the embedded
    arithmetic can fail to produce a finite value.
  * Blockify and Graphify read SRPREC_KEY and BLOCK_KEY with dtype str, so
    their key types are String.  Cultivate obtains its conversion table from
    harvest._load, a bare read_csv without dtype, so its all-digit keys parse
    as numbers (the leading zero of a 15 digit census code is lost) and are
    modelled as naturals; the astype(str) in Cultivate.blockify line 161 is
    Nat.repr.
  * pandas groupby sorts the group keys ascending and groupby(...).transform
    realigns group results to the original positions; nlargest with the
    default keep equal to first takes ties in index order.
-/

/-- Rounding to the nearest integer with ties to even: the behaviour of the
Python builtin round applied to the remainder sum in hamilton_floor
(int(round(remainder.sum())), blockify.py line 46). -/
def roundHalfEven (q : ℚ) : ℤ :=
  if q - ⌊q⌋ < 1/2 then ⌊q⌋
  else if 1/2 < q - ⌊q⌋ then ⌊q⌋ + 1
  else if ⌊q⌋ % 2 = 0 then ⌊q⌋ else ⌊q⌋ + 1

/-- Priority relation of pandas Series.nlargest with keep equal to first:
index j is listed before index i when j has a strictly larger value, or an
equal value and a smaller positional index. -/
def beats (rem : ℕ → ℚ) (j i : ℕ) : Prop :=
  rem i < rem j ∨ (rem j = rem i ∧ j < i)

instance (rem : ℕ → ℚ) (j i : ℕ) : Decidable (beats rem j i) := by
  unfold beats; infer_instance

/-- Position that nlargest keep first assigns to index i among 0..n-1: the
number of indices that beat i.  Index i is among the top d picks exactly when
hrank rem n i < d. -/
def hrank (rem : ℕ → ℚ) (n i : ℕ) : ℕ :=
  ((Finset.range n).filter (fun j => beats rem j i)).card

/-- Sum of the fractional parts of a list of rationals (remainder.sum()). -/
def fracSum (qs : List ℚ) : ℚ := (qs.map Int.fract).sum

/-- Sum of the floors of a list of rationals. -/
def floorSum (qs : List ℚ) : ℤ := (qs.map (fun q => ⌊q⌋)).sum

/-- Number of leftover units distributed by hamilton_floor:
n_remaining = int(round(remainder.sum())) (blockify.py line 46). -/
def deficit (qs : List ℚ) : ℤ := roundHalfEven (fracSum qs)

/-- Model of hamilton_floor (blockify.py lines 40-50, identical in graphify.py
and cultivate.py) on a series without missing values: floor every value, then
add one to the top n_remaining fractional remainders, ties resolved by
nlargest keep first, i.e. in favour of earlier positions.  When
n_remaining <= 0 the floors are returned unchanged. -/
def hamiltonFloor (qs : List ℚ) : List ℤ :=
  (List.range qs.length).map (fun i =>
    ⌊qs.getD i 0⌋ +
      if 0 < deficit qs ∧
          (hrank (fun j => Int.fract (qs.getD j 0)) qs.length i : ℤ) < deficit qs
      then 1 else 0)

/-- Model of hamilton_floor on a series that may contain missing values.
If every value is missing, a series of zeros is returned (line 42-43).
Otherwise np.floor(values).astype(int) raises on any remaining NaN, modelled
as none; on an all-present series it is hamiltonFloor. -/
def hamiltonFloorOpt (vals : List (Option ℚ)) : Option (List ℤ) :=
  if vals.all (fun v => v.isNone) then some (vals.map (fun _ => 0))
  else if vals.all (fun v => v.isSome) then
    some (hamiltonFloor (vals.map (fun v => v.getD 0)))
  else none

/-- hamilton_floor as used at the call sites; the none case never occurs there
(theorem for claim C10). -/
def hamiltonAt (vals : List (Option ℚ)) : List ℤ :=
  (hamiltonFloorOpt vals).getD []

/-- Precinct vote record: SRPREC_KEY with the renamed integer columns dem and
rep (blockify.py lines 20-27). -/
structure VoteRow (K : Type) where
  srprec : K
  dem : ℤ
  rep : ℤ
deriving DecidableEq

/-- Conversion record: SRPREC_KEY, BLOCK_KEY and the float columns BLKREG and
SRTOTREG; a missing numeric cell is none (blockify.py lines 29-38). -/
structure ConvRow (K B : Type) where
  srprec : K
  blockKey : B
  blkreg : Option ℚ
  srtotreg : Option ℚ
deriving DecidableEq

/-- Row of conversion_df.merge(election_df, on SRPREC_KEY, how left): the
vote columns are none when no vote record matched. -/
structure MRow (K B : Type) where
  srprec : K
  blockKey : B
  blkreg : Option ℚ
  srtotreg : Option ℚ
  dem : Option ℤ
  rep : Option ℤ
deriving DecidableEq

instance {K B : Type} [Inhabited K] [Inhabited B] : Inhabited (MRow K B) :=
  ⟨⟨default, default, none, none, none, none⟩⟩

/-- Merged rows produced by one conversion row in the pandas left merge: one
row per matching vote row, or a single row with missing vote columns when no
vote row matches. -/
def mergeOne {K B : Type} [DecidableEq K]
    (votes : List (VoteRow K)) (c : ConvRow K B) : List (MRow K B) :=
  let ms := votes.filter (fun v => decide (v.srprec = c.srprec))
  if ms.isEmpty then [⟨c.srprec, c.blockKey, c.blkreg, c.srtotreg, none, none⟩]
  else ms.map (fun v => ⟨c.srprec, c.blockKey, c.blkreg, c.srtotreg, some v.dem, some v.rep⟩)

/-- Pandas left merge on SRPREC_KEY (blockify.py line 66). -/
def mergeLeft {K B : Type} [DecidableEq K]
    (conv : List (ConvRow K B)) (votes : List (VoteRow K)) : List (MRow K B) :=
  conv.flatMap (mergeOne votes)

/-- dropna(subset BLKREG SRTOTREG dem rep) (blockify.py line 69). -/
def keepRow {K B : Type} (r : MRow K B) : Bool :=
  r.blkreg.isSome && r.srtotreg.isSome && r.dem.isSome && r.rep.isSome

/-- merged[merged SRTOTREG > 0] (blockify.py line 70); a missing value
compares false, as NaN does. -/
def posReg {K B : Type} (r : MRow K B) : Bool :=
  match r.srtotreg with
  | some t => decide (0 < t)
  | none => false

/-- Raw proportional allocation count * BLKREG / SRTOTREG (blockify.py lines
73-74); none models the non-finite float results that lines 77-78 replace
with NaN and drop, which in exact arithmetic arise only from a zero divisor. -/
def rawDiv (d : ℤ) (b t : ℚ) : Option ℚ :=
  if t = 0 then none else some (d * b / t)

/-- dem_raw column of a merged row. -/
def demRaw {K B : Type} (r : MRow K B) : Option ℚ :=
  rawDiv (r.dem.getD 0) (r.blkreg.getD 0) (r.srtotreg.getD 0)

/-- rep_raw column of a merged row. -/
def repRaw {K B : Type} (r : MRow K B) : Option ℚ :=
  rawDiv (r.rep.getD 0) (r.blkreg.getD 0) (r.srtotreg.getD 0)

/-- The row filters of blockify.py lines 69-78: dropna on the four data
columns, strictly positive SRTOTREG, and finite raw allocations. -/
def survFilters {K B : Type} (l : List (MRow K B)) : List (MRow K B) :=
  (((l.filter keepRow).filter posReg).filter
      (fun r => (demRaw r).isSome)).filter (fun r => (repRaw r).isSome)

/-- The merged rows surviving all row filters of blockify.py lines 66-78. -/
def rows2 {K B : Type} [DecidableEq K]
    (votes : List (VoteRow K)) (conv : List (ConvRow K B)) : List (MRow K B) :=
  survFilters (mergeLeft conv votes)

/-- Positions (in original order) of the rows of the given precinct: the group
that groupby(SRPREC_KEY) forms for that key. -/
def grpIdx {K B : Type} [DecidableEq K] [Inhabited K] [Inhabited B]
    (rows : List (MRow K B)) (p : K) : List ℕ :=
  (List.range rows.length).filter (fun j => decide ((rows.getD j default).srprec = p))

/-- Position of i in a list of indices (used to realign a transform result to
the original row positions). -/
def posIn (i : ℕ) : List ℕ → ℕ
  | [] => 0
  | j :: js => if j = i then 0 else posIn i js + 1

/-- groupby(SRPREC_KEY)[col].transform(hamilton_floor) at row position i
(blockify.py lines 81-86): apply hamilton_floor to the values of the row's
group, in original order, and take the entry aligned with this row. -/
def transformCol {K B : Type} [DecidableEq K] [Inhabited K] [Inhabited B]
    (rows : List (MRow K B)) (f : MRow K B → Option ℚ) (i : ℕ) : ℤ :=
  let J := grpIdx rows (rows.getD i default).srprec
  (hamiltonAt (J.map (fun j => f (rows.getD j default)))).getD (posIn i J) 0

/-- A surviving conversion row after apportionment: its precinct, its block
key and its integer dem and rep allocations. -/
structure ARow (K B : Type) where
  srprec : K
  blockKey : B
  dem : ℤ
  rep : ℤ
deriving DecidableEq

/-- The apportioned table: the surviving merged rows with the dem and rep
columns replaced by their Hamilton-rounded integer allocations (blockify.py
lines 81-86). -/
def allocRows {K B : Type} [DecidableEq K] [Inhabited K] [Inhabited B]
    (votes : List (VoteRow K)) (conv : List (ConvRow K B)) : List (ARow K B) :=
  let rows := rows2 votes conv
  (List.range rows.length).map (fun i =>
    ⟨(rows.getD i default).srprec, (rows.getD i default).blockKey,
      transformCol rows demRaw i, transformCol rows repRaw i⟩)

/-- Insert into a list kept weakly sorted by the given key (helper for the
pandas ascending sorts). -/
def insertOrd {α β : Type} [LinearOrder α] (key : β → α) (x : β) : List β → List β
  | [] => [x]
  | y :: ys => if key x ≤ key y then x :: y :: ys else y :: insertOrd key x ys

/-- Ascending sort by a key: sort_values of pandas on a column without
duplicate handling concerns. -/
def sortOrd {α β : Type} [LinearOrder α] (key : β → α) (l : List β) : List β :=
  l.foldr (insertOrd key) []

/-- Insert into a strictly sorted list, skipping duplicates (helper for the
sorted distinct group keys that pandas groupby produces). -/
def insertKey {α : Type} [LinearOrder α] (x : α) : List α → List α
  | [] => [x]
  | y :: ys => if x < y then x :: y :: ys else if x = y then y :: ys else y :: insertKey x ys

/-- The strictly ascending list of the distinct elements of a list: the group
keys of a pandas groupby with its default ascending key sort. -/
def sortDedup {α : Type} [LinearOrder α] (l : List α) : List α :=
  l.foldr insertKey []

/-- Output row of the aggregation entry points: target geography identifier,
tot, dem and rep columns. -/
structure OutRow where
  geoid : String
  tot : ℤ
  dem : ℤ
  rep : ℤ
deriving DecidableEq

/-- Water-only test of blockify.py lines 92-94 (length 12) and cultivate.py
lines 160-163 (length 11): the last character of the enclosing code of the
given length (the pandas .str[:n].str[-1]) is the digit 0.  On an identifier
shorter than the length the whole identifier is tested; on an empty one the
test is false, as the pandas NaN comparison is. -/
def sentinelHit (senLen : ℕ) (s : String) : Bool :=
  decide ((s.take senLen).data.getLast? = some (Char.ofNat 48))

/-- The block level table: group the apportioned rows by BLOCK_KEY summing dem
and rep (the keys come out sorted and distinct), add tot, drop water-only
blocks, and sort by the stringified block key (blockify.py lines 88-95;
cultivate.py lines 156-164 with toStr = Nat.repr and senLen = 11). -/
def blockTableG {K B : Type} [DecidableEq K] [Inhabited K] [Inhabited B] [LinearOrder B]
    [DecidableEq B] (toStr : B → String) (senLen : ℕ)
    (votes : List (VoteRow K)) (conv : List (ConvRow K B)) : List OutRow :=
  let alloc := allocRows votes conv
  let keys := sortDedup (alloc.map (fun r => r.blockKey))
  let bv := keys.map (fun b =>
    let d := ((alloc.filter (fun r => decide (r.blockKey = b))).map (fun r => r.dem)).sum
    let rp := ((alloc.filter (fun r => decide (r.blockKey = b))).map (fun r => r.rep)).sum
    OutRow.mk (toStr b) (d + rp) d rp)
  let kept := bv.filter (fun row => !(sentinelHit senLen row.geoid))
  sortOrd (fun row => row.geoid) kept

/-- Coarser aggregation: derive the target identifier as the k character
prefix of the row identifier, group summing dem and rep, recompute tot as
dem + rep, and sort ascending by the target identifier (blockify.py lines
101-118 with k = 12, 11 or 5; cultivate.py lines 166-187 with k = 11). -/
def aggBy (k : ℕ) (rows : List OutRow) : List OutRow :=
  let gs := sortDedup (rows.map (fun r => r.geoid.take k))
  let out := gs.map (fun g =>
    let d := ((rows.filter (fun r => decide (r.geoid.take k = g))).map (fun r => r.dem)).sum
    let rp := ((rows.filter (fun r => decide (r.geoid.take k = g))).map (fun r => r.rep)).sum
    OutRow.mk g (d + rp) d rp)
  sortOrd (fun row => row.geoid) out

/-- The block table of Blockify.rollup and Graphify.blockify: string keys,
identity stringification, water sentinel on the 12 character block group
code. -/
def blockTableStr (votes : List (VoteRow String)) (conv : List (ConvRow String String)) :
    List OutRow :=
  blockTableG (fun s => s) 12 votes conv

/-- The four aggregation levels accepted by Blockify.rollup and
Graphify.blockify. -/
def recognizedLevels : List String := ["block", "blockgroup", "tract", "county"]

/-- Model of Blockify.rollup (blockify.py lines 52-118): build the block
table, then dispatch on the requested level; an unrecognized level raises
ValueError, modelled as Except.error. -/
def rollup (level : String) (votes : List (VoteRow String))
    (conv : List (ConvRow String String)) : Except String (List OutRow) :=
  let bt := blockTableStr votes conv
  if level = "block" then .ok bt
  else if level = "blockgroup" then .ok (aggBy 12 bt)
  else if level = "tract" then .ok (aggBy 11 bt)
  else if level = "county" then .ok (aggBy 5 bt)
  else .error "Invalid level"

/-- Model of Graphify.blockify (graphify.py lines 52-127): the same pipeline
as Blockify.rollup (its extra GEOID column for the block level duplicates
BLOCK_KEY and its output column renames do not change the row data). -/
def graphifyBlockify (level : String) (votes : List (VoteRow String))
    (conv : List (ConvRow String String)) : Except String (List OutRow) :=
  let bt := blockTableStr votes conv
  if level = "block" then .ok bt
  else if level = "blockgroup" then .ok (aggBy 12 bt)
  else if level = "tract" then .ok (aggBy 11 bt)
  else if level = "county" then .ok (aggBy 5 bt)
  else .error "Invalid level"

/-- The block table of Cultivate.blockify: numeric keys stringified by
astype(str), water sentinel on the first 11 characters of the stringified
key (cultivate.py lines 156-164). -/
def cultivateBlockTable (votes : List (VoteRow ℕ)) (conv : List (ConvRow ℕ ℕ)) :
    List OutRow :=
  blockTableG Nat.repr 11 votes conv

/-- Model of Cultivate.blockify (cultivate.py lines 120-187): only the
blockgroup level is accepted, aggregating by the first 11 characters of the
stringified block key; every other level raises ValueError. -/
def cultivateBlockify (level : String) (votes : List (VoteRow ℕ))
    (conv : List (ConvRow ℕ ℕ)) : Except String (List OutRow) :=
  let bt := cultivateBlockTable votes conv
  if level = "blockgroup" then .ok (aggBy 11 bt)
  else .error "Invalid level"

/-- Aggregation of the raw apportioned sub-unit rows straight to the k
character prefix of their block key, bypassing the intermediate block table:
the comparison point for the idempotence claim C8. -/
def directAgg (k : ℕ) (votes : List (VoteRow String))
    (conv : List (ConvRow String String)) : List OutRow :=
  let alloc := (allocRows votes conv).filter (fun r => !(sentinelHit 12 r.blockKey))
  let gs := sortDedup (alloc.map (fun r => r.blockKey.take k))
  gs.map (fun g =>
    let d := ((alloc.filter (fun r => decide (r.blockKey.take k = g))).map (fun r => r.dem)).sum
    let rp := ((alloc.filter (fun r => decide (r.blockKey.take k = g))).map (fun r => r.rep)).sum
    OutRow.mk g (d + rp) d rp)

/-- Whether an Except value is an error (a raised exception). -/
def isErr {ε α : Type} : Except ε α → Bool
  | .error _ => true
  | .ok _ => false

instance {ε α : Type} [DecidableEq ε] [DecidableEq α] : DecidableEq (Except ε α) :=
  fun x y =>
    match x, y with
    | Except.ok a, Except.ok b =>
        if h : a = b then isTrue (by rw [h]) else isFalse (fun hc => h (Except.ok.inj hc))
    | Except.error a, Except.error b =>
        if h : a = b then isTrue (by rw [h]) else isFalse (fun hc => h (Except.error.inj hc))
    | Except.ok _, Except.error _ => isFalse (fun hc => Except.noConfusion hc)
    | Except.error _, Except.ok _ => isFalse (fun hc => Except.noConfusion hc)

/-- Conversion rows that survive the data-quality filters: a matching vote
record exists, BLKREG is present, and SRTOTREG is present and strictly
positive. -/
def convKeeps {K B : Type} [DecidableEq K]
    (votes : List (VoteRow K)) (c : ConvRow K B) : Bool :=
  (votes.any (fun v => decide (v.srprec = c.srprec))) && c.blkreg.isSome &&
    (match c.srtotreg with
     | some t => decide (0 < t)
     | none => false)

/-- Concrete tables for the conservation counterexample: one precinct with one
dem vote, one conversion row covering half of the registration total. -/
def votesC1 : List (VoteRow String) := [⟨"P1", 1, 0⟩]

/-- Conversion table of the conservation counterexample. -/
def convC1 : List (ConvRow String String) := [⟨"P1", "B1", some 1, some 2⟩]

/-- Group of values for the Hamilton contract counterexample. -/
def qsC2 : List ℚ := [3/2]

/-- Group of non-negative values with integral remainder sum, used by the
Hamilton contract witness. -/
def qsW2 : List ℚ := [1/4, 3/4]

/-- Group of values with a positive deficit and tied remainders, used by the
tie-break witness. -/
def qsC6 : List ℚ := [1/2, 1/2, 1/2]

/-- Vote table for the Cultivate prefix-length counterexample. -/
def votesC3 : List (VoteRow ℕ) := [⟨1, 4, 0⟩]

/-- Conversion table for the Cultivate prefix-length counterexample: two
15 digit block keys sharing their first eleven digits but not their first
twelve. -/
def convC3 : List (ConvRow ℕ ℕ) :=
  [⟨1, 111111111119100, some 1, some 2⟩, ⟨1, 111111111112100, some 1, some 2⟩]

/-- Vote table for the Cultivate sentinel counterexample. -/
def votesC4 : List (VoteRow ℕ) := [⟨1, 2, 0⟩]

/-- Conversion table for the Cultivate sentinel counterexample: a 15 digit
block key whose 12 character block group code ends in 0 but whose first 11
characters do not. -/
def convC4 : List (ConvRow ℕ ℕ) := [⟨1, 111111111110222, some 1, some 1⟩]

/-- Small vote table used by witnesses: one precinct with 3 dem and 5 rep
votes. -/
def votesW : List (VoteRow String) := [⟨"P", 3, 5⟩]

/-- Small conversion table used by witnesses: the precinct splits evenly
between two blocks in different counties. -/
def convW : List (ConvRow String String) :=
  [⟨"P", "060010001001001", some 1, some 2⟩, ⟨"P", "061110002002002", some 1, some 2⟩]

/-- Vote table with integral splits used by the ordering witness. -/
def votesW9 : List (VoteRow String) := [⟨"P", 4, 2⟩]

/-- Conversion table with integral splits used by the ordering witness. -/
def convW9 : List (ConvRow String String) :=
  [⟨"P", "060010001001001", some 1, some 2⟩, ⟨"P", "061110002002002", some 1, some 2⟩]

theorem sumMapAdd {α M : Type} [AddCommMonoid M] (l : List α) (f g : α → M) :
    (l.map (fun a => f a + g a)).sum = (l.map f).sum + (l.map g).sum := by
  induction l with
  | nil => simp
  | cons a tl ih =>
      rw [List.map_cons, List.map_cons, List.map_cons, List.sum_cons, List.sum_cons,
        List.sum_cons, ih, add_add_add_comm]

theorem sumMapSub {α : Type} (l : List α) (f g : α → ℚ) :
    (l.map (fun a => f a - g a)).sum = (l.map f).sum - (l.map g).sum := by
  induction l with
  | nil => simp
  | cons a tl ih =>
      rw [List.map_cons, List.map_cons, List.map_cons, List.sum_cons, List.sum_cons,
        List.sum_cons, ih]
      ring

theorem sumMapRange {M : Type} [AddCommMonoid M] (n : ℕ) (f : ℕ → M) :
    ((List.range n).map f).sum = ∑ i ∈ Finset.range n, f i := by
  induction n with
  | zero => simp
  | succ m ih =>
      rw [List.range_succ, List.map_append, List.sum_append, Finset.sum_range_succ, ih]
      simp

theorem compGetDSucc {α β : Type} (a : α) (tl : List α) (d : α) (f : α → β) :
    ((fun i => f ((a :: tl).getD i d)) ∘ Nat.succ) = (fun i => f (tl.getD i d)) := by
  funext i
  simp

theorem mapRangeGetD {α β : Type} (l : List α) (d : α) (f : α → β) :
    (List.range l.length).map (fun i => f (l.getD i d)) = l.map f := by
  induction l with
  | nil => simp
  | cons a tl ih =>
      rw [List.length_cons, List.range_succ_eq_map, List.map_cons, List.map_map,
        List.map_cons, List.getD_cons_zero, compGetDSucc, ih]

theorem getElemsFilter {α : Type} (l : List α) (d : α) (p : α → Bool) :
    ((List.range l.length).filter (fun i => p (l.getD i d))).map (fun i => l.getD i d)
      = l.filter p := by
  induction l with
  | nil => simp
  | cons a tl ih =>
      rw [List.length_cons, List.range_succ_eq_map, List.filter_cons, List.filter_map,
        compGetDSucc a tl d p, List.getD_cons_zero]
      by_cases hp : p a
      · rw [if_pos hp, List.filter_cons_of_pos hp, List.map_cons, List.map_map,
          List.getD_cons_zero, compGetDSucc a tl d (fun x => x), ih]
      · rw [if_neg hp, List.filter_cons_of_neg hp, List.map_map,
          compGetDSucc a tl d (fun x => x), ih]

theorem sumGetDPosIn (outs : List ℤ) (js : List ℕ) (hn : js.Nodup)
    (hl : outs.length = js.length) :
    (js.map (fun i => outs.getD (posIn i js) 0)).sum = outs.sum := by
  induction js generalizing outs with
  | nil =>
      cases outs with
      | nil => simp
      | cons o os => simp at hl
  | cons j js' ih =>
      cases outs with
      | nil => simp at hl
      | cons o os =>
          rw [List.map_cons, List.sum_cons, List.sum_cons]
          have hj0 : posIn j (j :: js') = 0 := by simp [posIn]
          rw [hj0, List.getD_cons_zero]
          have hne : ∀ i ∈ js', i ≠ j := by
            intro i hi
            intro hij
            exact (List.nodup_cons.mp hn).1 (hij ▸ hi)
          have hmap : js'.map (fun i => (o :: os).getD (posIn i (j :: js')) 0)
              = js'.map (fun i => os.getD (posIn i js') 0) := by
            refine List.map_congr_left ?_
            intro i hi
            have : posIn i (j :: js') = posIn i js' + 1 := by
              simp [posIn, (hne i hi).symm]
            rw [this, List.getD_cons_succ]
          rw [hmap, ih os (List.nodup_cons.mp hn).2 (by simpa using hl)]

theorem memInsertOrd {α β : Type} [LinearOrder α] (key : β → α) (x a : β) (l : List β) :
    a ∈ insertOrd key x l ↔ a = x ∨ a ∈ l := by
  induction l with
  | nil => simp [insertOrd]
  | cons y ys ih =>
      by_cases h : key x ≤ key y
      · simp [insertOrd, h]
      · simp only [insertOrd, if_neg h, List.mem_cons, ih]
        tauto

theorem pairwiseInsertOrd {α β : Type} [LinearOrder α] (key : β → α) (x : β) (l : List β)
    (h : l.Pairwise (fun a b => key a ≤ key b)) :
    (insertOrd key x l).Pairwise (fun a b => key a ≤ key b) := by
  induction l with
  | nil => simp [insertOrd]
  | cons y ys ih =>
      rcases List.pairwise_cons.mp h with ⟨hy, hys⟩
      by_cases hxy : key x ≤ key y
      · rw [insertOrd, if_pos hxy]
        refine List.pairwise_cons.mpr ⟨?_, h⟩
        intro b hb
        rcases List.mem_cons.mp hb with hb | hb
        · exact hb ▸ hxy
        · exact le_trans hxy (hy b hb)
      · rw [insertOrd, if_neg hxy]
        refine List.pairwise_cons.mpr ⟨?_, ih hys⟩
        intro b hb
        rcases (memInsertOrd key x b ys).mp hb with hb | hb
        · exact hb ▸ le_of_lt (lt_of_not_le hxy)
        · exact hy b hb

theorem pairwiseSortOrd {α β : Type} [LinearOrder α] (key : β → α) (l : List β) :
    (sortOrd key l).Pairwise (fun a b => key a ≤ key b) := by
  induction l with
  | nil => simp [sortOrd]
  | cons a tl ih => exact pairwiseInsertOrd key a (sortOrd key tl) ih

theorem memSortOrd {α β : Type} [LinearOrder α] (key : β → α) (a : β) (l : List β) :
    a ∈ sortOrd key l ↔ a ∈ l := by
  induction l with
  | nil => simp [sortOrd]
  | cons y ys ih =>
      show a ∈ insertOrd key y (sortOrd key ys) ↔ _
      rw [memInsertOrd, ih]
      simp

theorem sortOrdOfPairwise {α β : Type} [LinearOrder α] (key : β → α) (l : List β)
    (h : l.Pairwise (fun a b => key a ≤ key b)) : sortOrd key l = l := by
  induction l with
  | nil => rfl
  | cons y ys ih =>
      rcases List.pairwise_cons.mp h with ⟨hy, hys⟩
      show insertOrd key y (sortOrd key ys) = y :: ys
      rw [ih hys]
      cases ys with
      | nil => rfl
      | cons z zs => exact if_pos (hy z (by simp))

theorem memInsertKey {α : Type} [LinearOrder α] (x a : α) (l : List α) :
    a ∈ insertKey x l ↔ a = x ∨ a ∈ l := by
  induction l with
  | nil => simp [insertKey]
  | cons y ys ih =>
      by_cases h1 : x < y
      · simp [insertKey, h1]
      · by_cases h2 : x = y
        · subst h2
          simp only [insertKey, if_neg h1, if_pos rfl]
          simp
        · simp only [insertKey, if_neg h1, if_neg h2, List.mem_cons, ih]
          tauto

theorem pairwiseInsertKey {α : Type} [LinearOrder α] (x : α) (l : List α)
    (h : l.Pairwise (· < ·)) : (insertKey x l).Pairwise (· < ·) := by
  induction l with
  | nil => simp [insertKey]
  | cons y ys ih =>
      rcases List.pairwise_cons.mp h with ⟨hy, hys⟩
      by_cases h1 : x < y
      · rw [insertKey, if_pos h1]
        refine List.pairwise_cons.mpr ⟨?_, h⟩
        intro b hb
        rcases List.mem_cons.mp hb with hb | hb
        · exact hb ▸ h1
        · exact lt_trans h1 (hy b hb)
      · by_cases h2 : x = y
        · rw [insertKey, if_neg h1, if_pos h2]
          exact h
        · rw [insertKey, if_neg h1, if_neg h2]
          refine List.pairwise_cons.mpr ⟨?_, ih hys⟩
          intro b hb
          rcases (memInsertKey x b ys).mp hb with hb | hb
          · rw [hb]
            rcases lt_trichotomy x y with h3 | h3 | h3
            · exact absurd h3 h1
            · exact absurd h3 h2
            · exact h3
          · exact hy b hb

theorem memSortDedup {α : Type} [LinearOrder α] (a : α) (l : List α) :
    a ∈ sortDedup l ↔ a ∈ l := by
  induction l with
  | nil => simp [sortDedup]
  | cons y ys ih =>
      show a ∈ insertKey y (ys.foldr insertKey []) ↔ _
      rw [memInsertKey]
      show a = y ∨ a ∈ sortDedup ys ↔ _
      rw [ih]
      simp

theorem pairwiseSortDedup {α : Type} [LinearOrder α] (l : List α) :
    (sortDedup l).Pairwise (· < ·) := by
  induction l with
  | nil => simp [sortDedup]
  | cons y ys ih => exact pairwiseInsertKey y (sortDedup ys) ih

theorem strictSortedEq {α : Type} [LinearOrder α] :
    ∀ l₁ l₂ : List α, l₁.Pairwise (· < ·) → l₂.Pairwise (· < ·) →
      (∀ a, a ∈ l₁ ↔ a ∈ l₂) → l₁ = l₂ := by
  intro l₁
  induction l₁ with
  | nil =>
      intro l₂ _ _ hm
      cases l₂ with
      | nil => rfl
      | cons b t => exact absurd ((hm b).mpr (by simp)) (by simp)
  | cons a t₁ ih =>
      intro l₂ h₁ h₂ hm
      cases l₂ with
      | nil => exact absurd ((hm a).mp (by simp)) (by simp)
      | cons b t₂ =>
          rcases List.pairwise_cons.mp h₁ with ⟨ha, ht₁⟩
          rcases List.pairwise_cons.mp h₂ with ⟨hb, ht₂⟩
          have hab : a = b := by
            rcases List.mem_cons.mp ((hm a).mp (by simp)) with h | h
            · exact h
            · rcases List.mem_cons.mp ((hm b).mpr (by simp)) with h' | h'
              · exact h'.symm
              · exact absurd (lt_trans (hb a h) (ha b h')) (lt_irrefl b)
          subst hab
          have htm : ∀ x, x ∈ t₁ ↔ x ∈ t₂ := by
            intro x
            constructor
            · intro hx
              rcases List.mem_cons.mp ((hm x).mp (List.mem_cons_of_mem a hx)) with h | h
              · exact absurd (h ▸ ha x hx) (lt_irrefl x)
              · exact h
            · intro hx
              rcases List.mem_cons.mp ((hm x).mpr (List.mem_cons_of_mem a hx)) with h | h
              · exact absurd (h ▸ hb x hx) (lt_irrefl x)
              · exact h
          rw [ih t₂ ht₁ ht₂ htm]

theorem nodupOfStrictSorted {α : Type} [LinearOrder α] (l : List α)
    (h : l.Pairwise (· < ·)) : l.Nodup :=
  h.imp ne_of_lt

theorem sumMapIteEq {K M : Type} [DecidableEq K] [AddCommMonoid M]
    (D : List K) (k : K) (c : M) (hn : D.Nodup) (hk : k ∈ D) :
    (D.map (fun b => if k = b then c else 0)).sum = c := by
  induction D with
  | nil => simp at hk
  | cons b bs ih =>
      rcases List.nodup_cons.mp hn with ⟨hb, hbs⟩
      rcases List.mem_cons.mp hk with h | h
      · rw [List.map_cons, List.sum_cons, if_pos h]
        have : (bs.map (fun b' => if k = b' then c else 0)).sum = 0 := by
          have hz : ∀ x ∈ bs.map (fun b' => if k = b' then c else 0), x = 0 := by
            intro x hx
            rcases List.mem_map.mp hx with ⟨b', hb', hx'⟩
            have hne : k ≠ b' := fun he => hb (((h.symm.trans he).symm) ▸ hb')
            rw [← hx', if_neg hne]
          exact List.sum_eq_zero hz
        rw [this, add_zero]
      · have hkb : k ≠ b := fun he => hb (he ▸ h)
        rw [List.map_cons, List.sum_cons, if_neg hkb, zero_add]
        exact ih hbs h

theorem sumMapIteEqZero {K M : Type} [DecidableEq K] [AddCommMonoid M]
    (D : List K) (k : K) (c : M) (hk : k ∉ D) :
    (D.map (fun b => if k = b then c else 0)).sum = 0 := by
  refine List.sum_eq_zero ?_
  intro x hx
  rcases List.mem_map.mp hx with ⟨b', hb', hx'⟩
  have : k ≠ b' := fun he => hk (he ▸ hb')
  rw [← hx', if_neg this]

theorem groupSumFilter {α K M : Type} [DecidableEq K] [AddCommMonoid M]
    (D : List K) (hD : D.Nodup) (l : List α) (key : α → K) (f : α → M) (q : K → Bool)
    (hall : ∀ r ∈ l, key r ∈ D) :
    ((D.filter q).map (fun b => ((l.filter (fun r => decide (key r = b))).map f).sum)).sum
      = ((l.filter (fun r => q (key r))).map f).sum := by
  induction l with
  | nil => simp
  | cons r tl ih =>
      have hall' : ∀ r' ∈ tl, key r' ∈ D := fun r' h => hall r' (List.mem_cons_of_mem r h)
      have hsplit : ∀ b : K,
          ((((r :: tl).filter (fun r' => decide (key r' = b))).map f).sum)
            = (if key r = b then f r else 0)
              + ((tl.filter (fun r' => decide (key r' = b))).map f).sum := by
        intro b
        rw [List.filter_cons]
        by_cases hb : key r = b
        · rw [if_pos (by simpa using hb), List.map_cons, List.sum_cons, if_pos hb]
        · rw [if_neg (by simpa using hb), if_neg hb, zero_add]
      have hmap : ((D.filter q).map (fun b =>
            (((r :: tl).filter (fun r' => decide (key r' = b))).map f).sum))
          = (D.filter q).map (fun b => (if key r = b then f r else 0)
              + ((tl.filter (fun r' => decide (key r' = b))).map f).sum) := by
        refine List.map_congr_left ?_
        intro b _
        exact hsplit b
      rw [hmap, sumMapAdd, ih hall']
      rw [List.filter_cons]
      by_cases hq : q (key r)
      · rw [if_pos hq, List.map_cons, List.sum_cons]
        have hmem : key r ∈ D.filter q := List.mem_filter.mpr ⟨hall r (by simp), hq⟩
        rw [sumMapIteEq (D.filter q) (key r) (f r) (List.Nodup.filter q hD) hmem]
      · rw [if_neg hq]
        have hmem : key r ∉ D.filter q := by
          intro hmem
          exact absurd (List.mem_filter.mp hmem).2 (by simp [hq])
        rw [sumMapIteEqZero (D.filter q) (key r) (f r) hmem, zero_add]

theorem groupSum {α K M : Type} [DecidableEq K] [AddCommMonoid M]
    (D : List K) (hD : D.Nodup) (l : List α) (key : α → K) (f : α → M)
    (hall : ∀ r ∈ l, key r ∈ D) :
    (D.map (fun b => ((l.filter (fun r => decide (key r = b))).map f).sum)).sum
      = (l.map f).sum := by
  have h := groupSumFilter D hD l key f (fun _ => true) hall
  simpa using h

theorem roundHalfEvenIntCast (k : ℤ) : roundHalfEven (k : ℚ) = k := by
  unfold roundHalfEven
  rw [Int.floor_intCast]
  rw [if_pos]
  rw [sub_self]
  norm_num

theorem floorLeRoundHalfEven (q : ℚ) : ⌊q⌋ ≤ roundHalfEven q := by
  unfold roundHalfEven
  split_ifs <;> omega

theorem roundHalfEvenLeFloorAddOne (q : ℚ) : roundHalfEven q ≤ ⌊q⌋ + 1 := by
  unfold roundHalfEven
  split_ifs <;> omega

theorem roundHalfEvenIntAdd (k : ℤ) (x : ℚ) (hx : Int.fract x ≠ 1/2) :
    roundHalfEven ((k : ℚ) + x) = k + roundHalfEven x := by
  have hfr : Int.fract x = x - ⌊x⌋ := rfl
  have hfl : ⌊(k : ℚ) + x⌋ = k + ⌊x⌋ := Int.floor_int_add k x
  unfold roundHalfEven
  rw [hfl]
  have hsub : (k : ℚ) + x - ((k + ⌊x⌋ : ℤ) : ℚ) = x - ⌊x⌋ := by
    push_cast
    ring
  rw [hsub]
  rcases lt_trichotomy (x - ⌊x⌋) (1/2 : ℚ) with h | h | h
  · rw [if_pos h, if_pos h]
  · exact absurd (hfr.trans h) hx
  · rw [if_neg (not_lt.mpr (le_of_lt h)), if_neg (not_lt.mpr (le_of_lt h)),
      if_pos h, if_pos h]
    omega

theorem fracSumNonneg (qs : List ℚ) : 0 ≤ fracSum qs := by
  refine List.sum_nonneg ?_
  intro x hx
  rcases List.mem_map.mp hx with ⟨q, _, hq⟩
  exact hq ▸ Int.fract_nonneg q

theorem fracSumLtLength (qs : List ℚ) (h : qs ≠ []) : fracSum qs < qs.length := by
  induction qs with
  | nil => exact absurd rfl h
  | cons a tl ih =>
      unfold fracSum
      rw [List.map_cons, List.sum_cons, List.length_cons]
      push_cast
      cases tl with
      | nil =>
          simp only [List.map_nil, List.sum_nil, add_zero, List.length_nil]
          push_cast
          linarith [Int.fract_lt_one a]
      | cons b tb =>
          have h2 := ih (by simp)
          unfold fracSum at h2
          have h1 := Int.fract_lt_one a
          linarith

theorem fracSumEq (qs : List ℚ) : fracSum qs = qs.sum - (floorSum qs : ℚ) := by
  unfold fracSum floorSum
  have : qs.map Int.fract = qs.map (fun q => q - ((⌊q⌋ : ℤ) : ℚ)) := by
    refine List.map_congr_left ?_
    intro q _
    rfl
  rw [this, sumMapSub]
  push_cast
  rw [List.map_id']
  refine congrArg (fun t => qs.sum - t) ?_
  induction qs with
  | nil => simp
  | cons a tl ih => simp [ih]

theorem deficitNonneg (qs : List ℚ) : 0 ≤ deficit qs := by
  have h1 : (0 : ℤ) ≤ ⌊fracSum qs⌋ := Int.floor_nonneg.mpr (fracSumNonneg qs)
  exact le_trans h1 (floorLeRoundHalfEven (fracSum qs))

theorem deficitLeLength (qs : List ℚ) : deficit qs ≤ qs.length := by
  cases qs with
  | nil =>
      have h0 : roundHalfEven ((0 : ℤ) : ℚ) = 0 := roundHalfEvenIntCast 0
      push_cast at h0
      unfold deficit fracSum
      simp [h0]
  | cons a tl =>
      have h1 : fracSum (a :: tl) < ((a :: tl).length : ℚ) := fracSumLtLength _ (by simp)
      have h2 : ⌊fracSum (a :: tl)⌋ < ((a :: tl).length : ℤ) := by
        exact_mod_cast Int.floor_lt.mpr (by exact_mod_cast h1)
      have h3 := roundHalfEvenLeFloorAddOne (fracSum (a :: tl))
      unfold deficit
      omega

theorem beatsIrrefl (rem : ℕ → ℚ) (i : ℕ) : ¬ beats rem i i := by
  simp [beats]

theorem beatsTrans (rem : ℕ → ℚ) {a b c : ℕ}
    (h1 : beats rem a b) (h2 : beats rem b c) : beats rem a c := by
  unfold beats at h1 h2 ⊢
  rcases h1 with h1 | ⟨h1e, h1i⟩
  · rcases h2 with h2 | ⟨h2e, h2i⟩
    · exact Or.inl (lt_trans h2 h1)
    · exact Or.inl (h2e ▸ h1)
  · rcases h2 with h2 | ⟨h2e, h2i⟩
    · exact Or.inl (h1e ▸ h2)
    · exact Or.inr ⟨h1e.trans h2e, lt_trans h1i h2i⟩

theorem beatsTotal (rem : ℕ → ℚ) {i j : ℕ} (h : i ≠ j) :
    beats rem i j ∨ beats rem j i := by
  unfold beats
  rcases lt_trichotomy (rem i) (rem j) with hr | hr | hr
  · exact Or.inr (Or.inl hr)
  · rcases Nat.lt_or_ge i j with hij | hij
    · exact Or.inl (Or.inr ⟨hr, hij⟩)
    · exact Or.inr (Or.inr ⟨hr.symm, lt_of_le_of_ne hij (Ne.symm h)⟩)
  · exact Or.inl (Or.inl hr)

theorem hrankLtHrank (rem : ℕ → ℚ) (n : ℕ) {i j : ℕ} (hi : i < n)
    (hij : beats rem i j) : hrank rem n i < hrank rem n j := by
  unfold hrank
  refine Finset.card_lt_card ?_
  rw [Finset.ssubset_iff_of_subset]
  · exact ⟨i, Finset.mem_filter.mpr ⟨Finset.mem_range.mpr hi, hij⟩,
      fun hmem => beatsIrrefl rem i (Finset.mem_filter.mp hmem).2⟩
  · intro k hk
    rcases Finset.mem_filter.mp hk with ⟨hk1, hk2⟩
    exact Finset.mem_filter.mpr ⟨hk1, beatsTrans rem hk2 hij⟩

theorem hrankLtN (rem : ℕ → ℚ) (n : ℕ) {i : ℕ} (hi : i < n) : hrank rem n i < n := by
  unfold hrank
  have hsub : (Finset.range n).filter (fun j => beats rem j i) ⊆ (Finset.range n).erase i := by
    intro k hk
    rcases Finset.mem_filter.mp hk with ⟨hk1, hk2⟩
    refine Finset.mem_erase.mpr ⟨?_, hk1⟩
    intro hki
    exact beatsIrrefl rem i (hki ▸ hk2)
  have h1 := Finset.card_le_card hsub
  rw [Finset.card_erase_of_mem (Finset.mem_range.mpr hi), Finset.card_range] at h1
  omega

theorem hrankInjOn (rem : ℕ → ℚ) (n : ℕ) :
    Set.InjOn (hrank rem n) (Finset.range n) := by
  intro i hi j hj hij
  by_contra hne
  rcases beatsTotal rem hne with h | h
  · have := hrankLtHrank rem n (Finset.mem_range.mp (by exact_mod_cast hi)) h
    omega
  · have := hrankLtHrank rem n (Finset.mem_range.mp (by exact_mod_cast hj)) h
    omega

theorem hrankImage (rem : ℕ → ℚ) (n : ℕ) :
    (Finset.range n).image (hrank rem n) = Finset.range n := by
  refine Finset.eq_of_subset_of_card_le ?_ ?_
  · intro v hv
    rcases Finset.mem_image.mp hv with ⟨i, hi, hvi⟩
    exact Finset.mem_range.mpr (hvi ▸ hrankLtN rem n (Finset.mem_range.mp hi))
  · rw [Finset.card_image_of_injOn (hrankInjOn rem n), Finset.card_range]

theorem hrankCount (rem : ℕ → ℚ) (n d : ℕ) :
    ((Finset.range n).filter (fun i => hrank rem n i < d)).card = min d n := by
  have himg : ((Finset.range n).filter (fun i => hrank rem n i < d)).image (hrank rem n)
      = ((Finset.range n).image (hrank rem n)).filter (fun v => v < d) := by
    rw [Finset.filter_image]
  have hcard : ((Finset.range n).filter (fun i => hrank rem n i < d)).card
      = (((Finset.range n).filter (fun i => hrank rem n i < d)).image (hrank rem n)).card := by
    rw [Finset.card_image_of_injOn
      (Set.InjOn.mono (by exact_mod_cast Finset.filter_subset _ _) (hrankInjOn rem n))]
  rw [hcard, himg, hrankImage]
  have : (Finset.range n).filter (fun v => v < d) = Finset.range (min d n) := by
    ext v
    simp [Nat.lt_min, and_comm]
  rw [this, Finset.card_range]

theorem hamiltonFloorLength (qs : List ℚ) : (hamiltonFloor qs).length = qs.length := by
  unfold hamiltonFloor
  rw [List.length_map, List.length_range]

theorem hamiltonFloorGetD (qs : List ℚ) (i : ℕ) (hi : i < qs.length) :
    (hamiltonFloor qs).getD i 0
      = ⌊qs.getD i 0⌋ +
          (if 0 < deficit qs ∧
              (hrank (fun j => Int.fract (qs.getD j 0)) qs.length i : ℤ) < deficit qs
           then 1 else 0) := by
  unfold hamiltonFloor
  rw [List.getD_eq_getElem?_getD, List.getElem?_map, List.getElem?_range hi]
  rfl

theorem hamiltonFloorSum (qs : List ℚ) :
    (hamiltonFloor qs).sum = floorSum qs + deficit qs := by
  unfold hamiltonFloor
  rw [sumMapRange, Finset.sum_add_distrib]
  have hfl : (∑ i ∈ Finset.range qs.length, ⌊qs.getD i 0⌋) = floorSum qs := by
    rw [← sumMapRange, mapRangeGetD]
    rfl
  rw [hfl]
  refine congrArg (fun t => floorSum qs + t) ?_
  by_cases hd : 0 < deficit qs
  · have hcong : ∀ i ∈ Finset.range qs.length,
        (if 0 < deficit qs ∧
            (hrank (fun j => Int.fract (qs.getD j 0)) qs.length i : ℤ) < deficit qs
         then (1 : ℤ) else 0)
          = (if hrank (fun j => Int.fract (qs.getD j 0)) qs.length i < (deficit qs).toNat
             then (1 : ℤ) else 0) := by
      intro i _
      by_cases hq : (hrank (fun j => Int.fract (qs.getD j 0)) qs.length i : ℤ) < deficit qs
      · rw [if_pos ⟨hd, hq⟩, if_pos (Int.lt_toNat.mpr hq)]
      · rw [if_neg (fun hc => hq hc.2), if_neg (fun hc => hq (Int.lt_toNat.mp hc))]
    rw [Finset.sum_congr rfl hcong, Finset.sum_boole,
      hrankCount (fun j => Int.fract (qs.getD j 0)) qs.length (deficit qs).toNat]
    have h1 := deficitLeLength qs
    have h2 := deficitNonneg qs
    have h3 : (deficit qs).toNat ≤ qs.length := by omega
    rw [min_eq_left h3]
    omega
  · have hd0 : deficit qs = 0 := le_antisymm (not_lt.mp hd) (deficitNonneg qs)
    have hz : (∑ i ∈ Finset.range qs.length,
        (if 0 < deficit qs ∧
            (hrank (fun j => Int.fract (qs.getD j 0)) qs.length i : ℤ) < deficit qs
         then (1 : ℤ) else 0)) = 0 := by
      refine Finset.sum_eq_zero ?_
      intro i _
      exact if_neg (fun hc => hd hc.1)
    rw [hz, hd0]

theorem hamiltonFloorSumRound (qs : List ℚ) (h : Int.fract (fracSum qs) ≠ 1/2) :
    (hamiltonFloor qs).sum = roundHalfEven qs.sum := by
  have hq : qs.sum = (floorSum qs : ℚ) + fracSum qs := by
    rw [fracSumEq]
    ring
  rw [hamiltonFloorSum, hq, roundHalfEvenIntAdd (floorSum qs) (fracSum qs) h]
  rfl

theorem hamiltonFloorOptSome (vals : List (Option ℚ)) (h : vals.all (fun v => v.isSome) = true) :
    hamiltonFloorOpt vals = some (hamiltonFloor (vals.map (fun v => v.getD 0))) := by
  cases vals with
  | nil => rfl
  | cons v vs =>
      simp only [List.all_cons, Bool.and_eq_true] at h
      rcases Option.isSome_iff_exists.mp h.1 with ⟨a, ha⟩
      subst ha
      have h1 : ¬ (((some a :: vs).all (fun v => v.isNone)) = true) := by simp
      have h2 : ((some a :: vs).all (fun v => v.isSome)) = true := by simp [h.2]
      unfold hamiltonFloorOpt
      rw [if_neg h1, if_pos h2]

theorem hamiltonAtSome (vals : List (Option ℚ)) (h : vals.all (fun v => v.isSome) = true) :
    hamiltonAt vals = hamiltonFloor (vals.map (fun v => v.getD 0)) := by
  unfold hamiltonAt
  rw [hamiltonFloorOptSome vals h]
  rfl

theorem hamiltonFloorOptNeNone (vals : List (Option ℚ))
    (h : vals.all (fun v => v.isNone) = true ∨ vals.all (fun v => v.isSome) = true) :
    hamiltonFloorOpt vals ≠ none := by
  unfold hamiltonFloorOpt
  rcases h with h | h
  · rw [if_pos h]
    simp
  · by_cases h0 : vals.all (fun v => v.isNone) = true
    · rw [if_pos h0]
      simp
    · rw [if_neg h0, if_pos h]
      simp

theorem rows2Mem {K B : Type} [DecidableEq K]
    (votes : List (VoteRow K)) (conv : List (ConvRow K B)) (r : MRow K B)
    (hr : r ∈ rows2 votes conv) :
    r ∈ mergeLeft conv votes ∧ keepRow r = true ∧ posReg r = true ∧
      (demRaw r).isSome = true ∧ (repRaw r).isSome = true := by
  unfold rows2 survFilters at hr
  rcases List.mem_filter.mp hr with ⟨hr, h4⟩
  rcases List.mem_filter.mp hr with ⟨hr, h3⟩
  rcases List.mem_filter.mp hr with ⟨hr, h2⟩
  rcases List.mem_filter.mp hr with ⟨hr, h1⟩
  exact ⟨hr, h1, h2, h3, h4⟩

theorem mergeLeftVote {K B : Type} [DecidableEq K]
    (conv : List (ConvRow K B)) (votes : List (VoteRow K)) (r : MRow K B)
    (hr : r ∈ mergeLeft conv votes) :
    (r.dem = none ∧ r.rep = none) ∨
      ∃ v ∈ votes, v.srprec = r.srprec ∧ r.dem = some v.dem ∧ r.rep = some v.rep := by
  unfold mergeLeft at hr
  rcases List.mem_flatMap.mp hr with ⟨c, _, hrc⟩
  unfold mergeOne at hrc
  by_cases he : (votes.filter (fun v => decide (v.srprec = c.srprec))).isEmpty
  · rw [if_pos he] at hrc
    rcases List.mem_singleton.mp hrc with rfl
    exact Or.inl ⟨rfl, rfl⟩
  · rw [if_neg he] at hrc
    rcases List.mem_map.mp hrc with ⟨v, hv, hveq⟩
    rcases List.mem_filter.mp hv with ⟨hv1, hv2⟩
    refine Or.inr ⟨v, hv1, ?_, ?_, ?_⟩
    · rw [← hveq]
      exact of_decide_eq_true hv2
    · rw [← hveq]
    · rw [← hveq]

theorem mergeLeftConv {K B : Type} [DecidableEq K]
    (conv : List (ConvRow K B)) (votes : List (VoteRow K)) (r : MRow K B)
    (hr : r ∈ mergeLeft conv votes) :
    ∃ c ∈ conv, r.srprec = c.srprec ∧ r.blockKey = c.blockKey ∧
      r.blkreg = c.blkreg ∧ r.srtotreg = c.srtotreg := by
  unfold mergeLeft at hr
  rcases List.mem_flatMap.mp hr with ⟨c, hc, hrc⟩
  unfold mergeOne at hrc
  by_cases he : (votes.filter (fun v => decide (v.srprec = c.srprec))).isEmpty
  · rw [if_pos he] at hrc
    rcases List.mem_singleton.mp hrc with rfl
    exact ⟨c, hc, rfl, rfl, rfl, rfl⟩
  · rw [if_neg he] at hrc
    rcases List.mem_map.mp hrc with ⟨v, _, hveq⟩
    refine ⟨c, hc, ?_, ?_, ?_, ?_⟩ <;> rw [← hveq]

theorem uniqueVoteDem {K B : Type} [DecidableEq K]
    (conv : List (ConvRow K B)) (votes : List (VoteRow K)) (p : K) (D R : ℤ)
    (hv : votes.filter (fun v => decide (v.srprec = p)) = [⟨p, D, R⟩])
    (r : MRow K B) (hr : r ∈ mergeLeft conv votes) (hp : r.srprec = p)
    (hd : r.dem ≠ none) : r.dem = some D ∧ r.rep = some R := by
  rcases mergeLeftVote conv votes r hr with ⟨h1, _⟩ | ⟨v, hv1, hv2, hv3, hv4⟩
  · exact absurd h1 hd
  · have hvmem : v ∈ votes.filter (fun v => decide (v.srprec = p)) :=
      List.mem_filter.mpr ⟨hv1, decide_eq_true (hv2.trans hp)⟩
    rw [hv] at hvmem
    rcases List.mem_singleton.mp hvmem with rfl
    exact ⟨hv3, hv4⟩

theorem grpIdxNodup {K B : Type} [DecidableEq K] [Inhabited K] [Inhabited B]
    (rows : List (MRow K B)) (p : K) : (grpIdx rows p).Nodup :=
  List.Nodup.filter _ (List.nodup_range _)

theorem grpIdxLt {K B : Type} [DecidableEq K] [Inhabited K] [Inhabited B]
    (rows : List (MRow K B)) (p : K) (i : ℕ) (hi : i ∈ grpIdx rows p) :
    i < rows.length ∧ (rows.getD i default).srprec = p := by
  rcases List.mem_filter.mp hi with ⟨h1, h2⟩
  exact ⟨List.mem_range.mp h1, of_decide_eq_true h2⟩

theorem grpIdxMapGetD {K B : Type} [DecidableEq K] [Inhabited K] [Inhabited B]
    (rows : List (MRow K B)) (p : K) :
    (grpIdx rows p).map (fun i => rows.getD i default)
      = rows.filter (fun r => decide (r.srprec = p)) := by
  unfold grpIdx
  exact getElemsFilter rows default (fun r => decide (r.srprec = p))

theorem getDMemOfLt {α : Type} (l : List α) (d : α) (i : ℕ) (hi : i < l.length) :
    l.getD i d ∈ l := by
  rw [List.getD_eq_getElem l d hi]
  exact List.getElem_mem hi

theorem transformGroupSum {K B : Type} [DecidableEq K] [Inhabited K] [Inhabited B]
    (rows : List (MRow K B)) (p : K) (f : MRow K B → Option ℚ)
    (hf : ∀ r ∈ rows, (f r).isSome = true) :
    ((grpIdx rows p).map (fun i => transformCol rows f i)).sum
      = (hamiltonFloor (((rows.filter (fun r => decide (r.srprec = p))).map f).map
          (fun v => v.getD 0))).sum := by
  set J := grpIdx rows p with hJ
  set V := J.map (fun j => f (rows.getD j default)) with hV
  have hVall : V.all (fun v => v.isSome) = true := by
    rw [List.all_eq_true]
    intro v hv
    rcases List.mem_map.mp hv with ⟨j, hj, hjv⟩
    exact hjv ▸ hf _ (getDMemOfLt rows default j (grpIdxLt rows p j hj).1)
  have hVeq : V = (rows.filter (fun r => decide (r.srprec = p))).map f := by
    rw [hV, ← grpIdxMapGetD rows p, List.map_map]
    rfl
  have hmap : J.map (fun i => transformCol rows f i)
      = J.map (fun i => (hamiltonAt V).getD (posIn i J) 0) := by
    refine List.map_congr_left ?_
    intro i hi
    unfold transformCol
    rw [(grpIdxLt rows p i hi).2]
  rw [hmap]
  rw [hamiltonAtSome V hVall]
  have hlen : (hamiltonFloor (V.map (fun v => v.getD 0))).length = J.length := by
    rw [hamiltonFloorLength, List.length_map, hV, List.length_map]
  rw [sumGetDPosIn _ J (grpIdxNodup rows p) hlen, hVeq]

theorem allocColDem {K B : Type} [DecidableEq K] [Inhabited K] [Inhabited B]
    (votes : List (VoteRow K)) (conv : List (ConvRow K B)) (p : K) :
    ((allocRows votes conv).filter (fun r => decide (r.srprec = p))).map (fun r => r.dem)
      = (grpIdx (rows2 votes conv) p).map
          (fun i => transformCol (rows2 votes conv) demRaw i) := by
  unfold allocRows
  rw [List.filter_map, List.map_map]
  rfl

theorem allocColRep {K B : Type} [DecidableEq K] [Inhabited K] [Inhabited B]
    (votes : List (VoteRow K)) (conv : List (ConvRow K B)) (p : K) :
    ((allocRows votes conv).filter (fun r => decide (r.srprec = p))).map (fun r => r.rep)
      = (grpIdx (rows2 votes conv) p).map
          (fun i => transformCol (rows2 votes conv) repRaw i) := by
  unfold allocRows
  rw [List.filter_map, List.map_map]
  rfl

theorem sumMapMulLeft {α : Type} (l : List α) (b : ℚ) (f : α → ℚ) :
    (l.map (fun a => b * f a)).sum = b * (l.map f).sum := by
  induction l with
  | nil => simp
  | cons a tl ih =>
      rw [List.map_cons, List.sum_cons, ih, List.map_cons, List.sum_cons, mul_add]

theorem hamiltonFloorSumInt (qs : List ℚ) (D : ℤ) (hq : qs.sum = (D : ℚ)) :
    (hamiltonFloor qs).sum = D := by
  rw [hamiltonFloorSum]
  have hfrac : fracSum qs = ((D - floorSum qs : ℤ) : ℚ) := by
    rw [fracSumEq, hq]
    push_cast
    ring
  unfold deficit
  rw [hfrac, roundHalfEvenIntCast]
  omega

theorem groupRawSum (G : List (MRow String String)) (T : ℚ) (c : ℤ)
    (f : MRow String String → Option ℚ)
    (hfr : ∀ r ∈ G, f r = some ((c : ℚ) * (r.blkreg.getD 0) / T))
    (hsum : (G.map (fun r => r.blkreg.getD 0)).sum = T) (hTne : T ≠ 0) :
    ((G.map f).map (fun v => v.getD 0)).sum = (c : ℚ) := by
  have h1 : (G.map f).map (fun v => v.getD 0)
      = G.map (fun r => (c : ℚ) * (r.blkreg.getD 0) / T) := by
    rw [List.map_map]
    refine List.map_congr_left ?_
    intro r hr
    simp [hfr r hr]
  have h2 : G.map (fun r => (c : ℚ) * (r.blkreg.getD 0) / T)
      = G.map (fun r => ((c : ℚ) / T) * (r.blkreg.getD 0)) := by
    refine List.map_congr_left ?_
    intro r _
    ring
  rw [h1, h2, sumMapMulLeft, hsum, div_mul_cancel₀ _ hTne]

theorem getDMapCast (ks : List ℤ) (i : ℕ) :
    (ks.map (fun z : ℤ => (z : ℚ))).getD i 0 = ((ks.getD i 0 : ℤ) : ℚ) := by
  induction ks generalizing i with
  | nil => simp
  | cons a tl ih =>
      cases i with
      | zero => simp
      | succ j => simpa using ih j

theorem fracSumIntCast (ks : List ℤ) : fracSum (ks.map (fun z : ℤ => (z : ℚ))) = 0 := by
  unfold fracSum
  rw [List.map_map]
  refine List.sum_eq_zero ?_
  intro x hx
  rcases List.mem_map.mp hx with ⟨z, _, hz⟩
  rw [← hz]
  exact Int.fract_intCast z

theorem deficitIntCast (ks : List ℤ) : deficit (ks.map (fun z : ℤ => (z : ℚ))) = 0 := by
  unfold deficit
  rw [fracSumIntCast]
  have h0 : ((0 : ℤ) : ℚ) = (0 : ℚ) := by norm_num
  rw [← h0, roundHalfEvenIntCast]

theorem hamiltonFloorIntCast (ks : List ℤ) :
    hamiltonFloor (ks.map (fun z : ℤ => (z : ℚ))) = ks := by
  unfold hamiltonFloor
  rw [deficitIntCast]
  refine List.ext_getElem ?_ ?_
  · simp
  · intro i h1 h2
    simp only [List.getElem_map, List.getElem_range]
    rw [if_neg (fun hc => absurd hc.1 (lt_irrefl 0)), add_zero, getDMapCast,
      Int.floor_intCast, List.getD_eq_getElem ks 0 h2]

set_option maxRecDepth 4000 in
set_option maxHeartbeats 1000000 in
/-- C1.  Conservation as literally claimed fails on the code: precinct P1 is
present in both tables with total registration 2 > 0 and its single
surviving conversion row covers registration 1, so its 1 dem vote is
apportioned as round(0.5) = 0 (Python rounds half to even): the sub-unit
allocations of P1 sum to 0, not to the original precinct count 1. -/
theorem C1_counterexample :
    (((allocRows votesC1 convC1).filter (fun r => decide (r.srprec = "P1"))).map
        (fun r => r.dem)).sum = 0 ∧
      votesC1 = [⟨"P1", 1, 0⟩] ∧ convC1 = [⟨"P1", "B1", some 1, some 2⟩] ∧
      ((0 : ℤ) ≠ 1) := by
  have ha : allocRows votesC1 convC1 = [⟨"P1", "B1", 0, 0⟩] := by
    have hr1 : List.range 1 = [0] := rfl
    have hr2 : rows2 votesC1 convC1 = [⟨"P1", "B1", some 1, some 2, some 1, some 0⟩] := by
      decide
    have hdm : demRaw (⟨"P1", "B1", some 1, some 2, some 1, some 0⟩ : MRow String String)
        = some (2⁻¹ : ℚ) := by
      unfold demRaw rawDiv
      norm_num
    have hrm : repRaw (⟨"P1", "B1", some 1, some 2, some 1, some 0⟩ : MRow String String)
        = some 0 := by
      unfold repRaw rawDiv
      norm_num
    have hfl0 : ⌊(2⁻¹ : ℚ)⌋ = 0 := by norm_num [Int.floor_eq_iff]
    have hd2 : deficit [(2⁻¹ : ℚ)] = 0 := by
      have hfs : fracSum [(2⁻¹ : ℚ)] = 2⁻¹ := by norm_num [fracSum, Int.fract_eq_self]
      unfold deficit roundHalfEven
      rw [hfs, hfl0]
      rw [if_neg (by push_cast; norm_num)]
      rw [if_neg (by push_cast; norm_num)]
      rw [if_pos (by decide)]
    have hh : hamiltonFloor [(2⁻¹ : ℚ)] = [0] := by
      unfold hamiltonFloor
      rw [hd2]
      simp [hr1, hfl0]
    have hh0 : hamiltonFloor [(0 : ℚ)] = [0] := by
      have h := hamiltonFloorIntCast [0]
      norm_num at h
      exact h
    unfold allocRows
    rw [hr2]
    simp [hr1, grpIdx, transformCol, posIn, hamiltonAt, hamiltonFloorOpt, hdm, hrm, hh, hh0]
  rw [ha]
  refine ⟨by decide, rfl, rfl, by decide⟩

/-- C1 (amended).  Conservation holds for every precinct present in both
tables whose surviving conversion rows carry one common strictly positive
total registration weight T that moreover equals the sum of their sub-unit
weights: the apportioned integer counts of the precinct then sum, per
choice, exactly to the original precinct counts.  (The counterexample shows
the extra hypothesis that the sub-unit weights of the surviving rows sum to
the recorded precinct total is necessary; on well-formed conversion tables,
where SRTOTREG is the precinct-wide sum of BLKREG, it holds by
construction.) -/
theorem C1_conservation
    (votes : List (VoteRow String)) (conv : List (ConvRow String String))
    (p : String) (D R : ℤ) (T : ℚ)
    (hv : votes.filter (fun v => decide (v.srprec = p)) = [⟨p, D, R⟩])
    (hne : (rows2 votes conv).filter (fun r => decide (r.srprec = p)) ≠ [])
    (hT : ∀ r ∈ (rows2 votes conv).filter (fun r => decide (r.srprec = p)),
        r.srtotreg = some T)
    (hsum : (((rows2 votes conv).filter (fun r => decide (r.srprec = p))).map
        (fun r => r.blkreg.getD 0)).sum = T) :
    (((allocRows votes conv).filter (fun r => decide (r.srprec = p))).map
        (fun r => r.dem)).sum = D ∧
      (((allocRows votes conv).filter (fun r => decide (r.srprec = p))).map
        (fun r => r.rep)).sum = R := by
  set rows := rows2 votes conv with hrows
  set G := rows.filter (fun r => decide (r.srprec = p)) with hG
  have hTpos : 0 < T := by
    rcases List.exists_mem_of_ne_nil G hne with ⟨r0, hr0⟩
    rcases List.mem_filter.mp hr0 with ⟨hr0m, _⟩
    have hpr := (rows2Mem votes conv r0 hr0m).2.2.1
    have hst := hT r0 hr0
    unfold posReg at hpr
    rw [hst] at hpr
    exact of_decide_eq_true hpr
  have hTne : T ≠ 0 := ne_of_gt hTpos
  have hGfacts : ∀ r ∈ G, r.srprec = p ∧ r ∈ rows := by
    intro r hr
    rcases List.mem_filter.mp hr with ⟨h1, h2⟩
    exact ⟨of_decide_eq_true h2, h1⟩
  have hdemEq : ∀ r ∈ G, demRaw r = some ((D : ℚ) * (r.blkreg.getD 0) / T) := by
    intro r hr
    rcases hGfacts r hr with ⟨hp, hrm⟩
    rcases rows2Mem votes conv r hrm with ⟨hml, hkeep, _, _, _⟩
    have hkeep' := hkeep
    unfold keepRow at hkeep'
    simp only [Bool.and_eq_true] at hkeep'
    have hdne : r.dem ≠ none := by
      intro h0
      rw [h0] at hkeep'
      simp at hkeep'
    rcases uniqueVoteDem conv votes p D R hv r hml hp hdne with ⟨hdm, _⟩
    unfold demRaw rawDiv
    rw [hdm, hT r hr]
    simp only [Option.getD_some]
    rw [if_neg hTne]
  have hrepEq : ∀ r ∈ G, repRaw r = some ((R : ℚ) * (r.blkreg.getD 0) / T) := by
    intro r hr
    rcases hGfacts r hr with ⟨hp, hrm⟩
    rcases rows2Mem votes conv r hrm with ⟨hml, hkeep, _, _, _⟩
    have hkeep' := hkeep
    unfold keepRow at hkeep'
    simp only [Bool.and_eq_true] at hkeep'
    have hdne : r.dem ≠ none := by
      intro h0
      rw [h0] at hkeep'
      simp at hkeep'
    rcases uniqueVoteDem conv votes p D R hv r hml hp hdne with ⟨_, hrp⟩
    unfold repRaw rawDiv
    rw [hrp, hT r hr]
    simp only [Option.getD_some]
    rw [if_neg hTne]
  have hfDem : ∀ r ∈ rows, (demRaw r).isSome = true := by
    intro r hr
    exact (rows2Mem votes conv r hr).2.2.2.1
  have hfRep : ∀ r ∈ rows, (repRaw r).isSome = true := by
    intro r hr
    exact (rows2Mem votes conv r hr).2.2.2.2
  constructor
  · rw [allocColDem, transformGroupSum rows p demRaw hfDem]
    exact hamiltonFloorSumInt _ D (groupRawSum G T D demRaw hdemEq hsum hTne)
  · rw [allocColRep, transformGroupSum rows p repRaw hfRep]
    exact hamiltonFloorSumInt _ R (groupRawSum G T R repRaw hrepEq hsum hTne)

/-- Witness for C1: on the concrete two-block precinct P the apportioned dem
and rep counts sum back to the original 3 and 5. -/
theorem C1_conservation_witness :
    (((allocRows votesW convW).filter (fun r => decide (r.srprec = "P"))).map
        (fun r => r.dem)).sum = 3 ∧
      (((allocRows votesW convW).filter (fun r => decide (r.srprec = "P"))).map
        (fun r => r.rep)).sum = 5 :=
  C1_conservation votesW convW "P" 3 5 2 (by decide) (by decide) (by decide)
    (by
      rw [show rows2 votesW convW =
          [⟨"P", "060010001001001", some 1, some 2, some 3, some 5⟩,
           ⟨"P", "061110002002002", some 1, some 2, some 3, some 5⟩] from by decide]
      norm_num)

theorem rows2Cons {K B : Type} [DecidableEq K]
    (votes : List (VoteRow K)) (c : ConvRow K B) (cv : List (ConvRow K B)) :
    rows2 votes (c :: cv) = survFilters (mergeOne votes c) ++ rows2 votes cv := by
  unfold rows2 mergeLeft survFilters
  rw [List.flatMap_cons, List.filter_append, List.filter_append, List.filter_append,
    List.filter_append]

theorem survFiltersMergeOneNil {K B : Type} [DecidableEq K]
    (votes : List (VoteRow K)) (c : ConvRow K B) (hq : convKeeps votes c = false) :
    survFilters (mergeOne votes c) = [] := by
  by_cases hA : (votes.filter (fun v => decide (v.srprec = c.srprec))).isEmpty = true
  · unfold survFilters mergeOne
    rw [if_pos hA]
    simp [keepRow]
  · have hAny : (votes.any (fun v => decide (v.srprec = c.srprec))) = true := by
      have hne : votes.filter (fun v => decide (v.srprec = c.srprec)) ≠ [] := by
        intro h0
        exact hA (by simp [h0])
      rcases List.exists_mem_of_ne_nil _ hne with ⟨v, hv⟩
      rcases List.mem_filter.mp hv with ⟨hv1, hv2⟩
      exact List.any_eq_true.mpr ⟨v, hv1, hv2⟩
    unfold convKeeps at hq
    rw [hAny] at hq
    simp only [Bool.true_and] at hq
    unfold survFilters mergeOne
    rw [if_neg hA]
    by_cases hB : c.blkreg.isSome = true
    · rw [hB] at hq
      simp only [Bool.true_and] at hq
      cases hst : c.srtotreg with
      | none =>
          have h1 : ((votes.filter (fun v => decide (v.srprec = c.srprec))).map
              (fun v => (⟨c.srprec, c.blockKey, c.blkreg, none, some v.dem,
                some v.rep⟩ : MRow K B))).filter keepRow = [] := by
            rw [List.filter_eq_nil_iff]
            intro r hr
            rcases List.mem_map.mp hr with ⟨v, _, hveq⟩
            rw [← hveq]
            simp [keepRow]
          rw [h1]
          rfl
      | some t =>
          rw [hst] at hq
          have ht : decide (0 < t) = false := by
            simpa using hq
          have h2 : (((votes.filter (fun v => decide (v.srprec = c.srprec))).map
              (fun v => (⟨c.srprec, c.blockKey, c.blkreg, some t, some v.dem,
                some v.rep⟩ : MRow K B))).filter keepRow).filter posReg = [] := by
            rw [List.filter_eq_nil_iff]
            intro r hr
            rcases List.mem_filter.mp hr with ⟨hr1, _⟩
            rcases List.mem_map.mp hr1 with ⟨v, _, hveq⟩
            rw [← hveq]
            simp only [posReg]
            simp [of_decide_eq_false ht]
          rw [h2]
          rfl
    · have hBf : c.blkreg.isSome = false := by
        cases hb : c.blkreg.isSome
        · rfl
        · exact absurd hb hB
      have h1 : ((votes.filter (fun v => decide (v.srprec = c.srprec))).map
          (fun v => (⟨c.srprec, c.blockKey, c.blkreg, c.srtotreg, some v.dem,
            some v.rep⟩ : MRow K B))).filter keepRow = [] := by
        rw [List.filter_eq_nil_iff]
        intro r hr
        rcases List.mem_map.mp hr with ⟨v, _, hveq⟩
        rw [← hveq]
        simp [keepRow, hBf]
      rw [h1]
      rfl

theorem rows2FilterKeeps (votes : List (VoteRow String))
    (conv : List (ConvRow String String)) :
    rows2 votes (conv.filter (convKeeps votes)) = rows2 votes conv := by
  induction conv with
  | nil => rfl
  | cons c cs ih =>
      rw [List.filter_cons]
      by_cases hq : convKeeps votes c = true
      · rw [if_pos hq, rows2Cons, rows2Cons, ih]
      · have hqf : convKeeps votes c = false := by
          cases h0 : convKeeps votes c
          · rfl
          · exact absurd h0 hq
        rw [if_neg (by simp [hqf]), rows2Cons, survFiltersMergeOneNil votes c hqf,
          List.nil_append, ih]

/-- C7.  Silent data-quality exclusion: conversion rows with no matching vote
record, or missing BLKREG, or missing or non-positive SRTOTREG are dropped
without any error, and removing them from the conversion table beforehand
leaves the result of Blockify.rollup unchanged at every level.  In
particular a precinct whose total registration weight is 0 contributes zero
rows to the output, whatever its vote counts, and the operation still
returns normally (an Except.ok value for every recognized level, by the
theorem for claim C5). -/
theorem C7_silent_exclusion (level : String) (votes : List (VoteRow String))
    (conv : List (ConvRow String String)) :
    rollup level votes conv = rollup level votes (conv.filter (convKeeps votes)) := by
  have hrows : rows2 votes (conv.filter (convKeeps votes)) = rows2 votes conv :=
    rows2FilterKeeps votes conv
  have halloc : allocRows votes (conv.filter (convKeeps votes)) = allocRows votes conv := by
    unfold allocRows
    rw [hrows]
  have hbt : blockTableStr votes (conv.filter (convKeeps votes))
      = blockTableStr votes conv := by
    unfold blockTableStr blockTableG
    rw [halloc]
  unfold rollup
  rw [hbt]

theorem aggByEq (k : ℕ) (rows : List OutRow) :
    aggBy k rows = (sortDedup (rows.map (fun r => r.geoid.take k))).map (fun g =>
      OutRow.mk g
        (((rows.filter (fun r => decide (r.geoid.take k = g))).map (fun r => r.dem)).sum
          + ((rows.filter (fun r => decide (r.geoid.take k = g))).map (fun r => r.rep)).sum)
        (((rows.filter (fun r => decide (r.geoid.take k = g))).map (fun r => r.dem)).sum)
        (((rows.filter (fun r => decide (r.geoid.take k = g))).map (fun r => r.rep)).sum)) := by
  unfold aggBy
  refine (sortOrdOfPairwise _ _ ?_).trans ?_
  · refine List.Pairwise.map _ ?_ (pairwiseSortDedup _)
    intro a b hab
    exact le_of_lt hab
  · rfl

theorem sortOrdPair {α β : Type} [LinearOrder α] (key : β → α) (a b : β)
    (h : key a ≤ key b) : sortOrd key [a, b] = [a, b] := by
  unfold sortOrd
  simp [insertOrd, h]

theorem sortDedupPairEq {α : Type} [LinearOrder α] (a : α) : sortDedup [a, a] = [a] := by
  unfold sortDedup
  simp [insertKey, lt_irrefl]

theorem sortDedupPairLt {α : Type} [LinearOrder α] (a b : α) (h : a < b) :
    sortDedup [a, b] = [a, b] := by
  unfold sortDedup
  simp [insertKey, h]

set_option maxHeartbeats 1000000 in
theorem blockTableStrEq (votes : List (VoteRow String)) (conv : List (ConvRow String String)) :
    blockTableStr votes conv
      = ((sortDedup ((allocRows votes conv).map (fun r => r.blockKey))).filter
          (fun b => !(sentinelHit 12 b))).map (fun b =>
            OutRow.mk b
              ((((allocRows votes conv).filter (fun r => decide (r.blockKey = b))).map
                  (fun r => r.dem)).sum
                + (((allocRows votes conv).filter (fun r => decide (r.blockKey = b))).map
                  (fun r => r.rep)).sum)
              ((((allocRows votes conv).filter (fun r => decide (r.blockKey = b))).map
                  (fun r => r.dem)).sum)
              ((((allocRows votes conv).filter (fun r => decide (r.blockKey = b))).map
                  (fun r => r.rep)).sum)) := by
  simp only [blockTableStr, blockTableG]
  rw [List.filter_map]
  refine (sortOrdOfPairwise _ _ ?_).trans ?_
  · refine List.Pairwise.map _ ?_ (List.Pairwise.filter _ (pairwiseSortDedup _))
    intro a b hab
    exact le_of_lt hab
  · dsimp only [Function.comp_def]

theorem sortDedupTakeKeys (votes : List (VoteRow String))
    (conv : List (ConvRow String String)) (k : ℕ) :
    sortDedup (((sortDedup ((allocRows votes conv).map (fun r => r.blockKey))).filter
        (fun b => !(sentinelHit 12 b))).map (fun b => b.take k))
      = sortDedup (((allocRows votes conv).filter
          (fun r => !(sentinelHit 12 r.blockKey))).map (fun r => r.blockKey.take k)) := by
  apply strictSortedEq _ _ (pairwiseSortDedup _) (pairwiseSortDedup _)
  intro g
  rw [memSortDedup, memSortDedup]
  constructor
  · intro hg
    rcases List.mem_map.mp hg with ⟨b, hb, hbg⟩
    rcases List.mem_filter.mp hb with ⟨hb1, hb2⟩
    rcases List.mem_map.mp ((memSortDedup _ _).mp hb1) with ⟨r, hr, hrb⟩
    refine List.mem_map.mpr ⟨r, List.mem_filter.mpr ⟨hr, ?_⟩, ?_⟩
    · rw [hrb]
      exact hb2
    · rw [hrb]
      exact hbg
  · intro hg
    rcases List.mem_map.mp hg with ⟨r, hr, hrg⟩
    rcases List.mem_filter.mp hr with ⟨hr1, hr2⟩
    refine List.mem_map.mpr ⟨r.blockKey, List.mem_filter.mpr ⟨?_, hr2⟩, hrg⟩
    exact (memSortDedup _ _).mpr (List.mem_map.mpr ⟨r, hr1, rfl⟩)

theorem keySumDirect (votes : List (VoteRow String)) (conv : List (ConvRow String String))
    (k : ℕ) (g : String) (f : ARow String String → ℤ) :
    ((((sortDedup ((allocRows votes conv).map (fun r => r.blockKey))).filter
          (fun b => !(sentinelHit 12 b))).filter (fun b => decide (b.take k = g))).map
        (fun b => (((allocRows votes conv).filter
          (fun r => decide (r.blockKey = b))).map f).sum)).sum
      = ((((allocRows votes conv).filter (fun r => !(sentinelHit 12 r.blockKey))).filter
          (fun r => decide (r.blockKey.take k = g))).map f).sum := by
  rw [List.filter_filter, List.filter_filter]
  have hnd : (sortDedup ((allocRows votes conv).map (fun r => r.blockKey))).Nodup :=
    nodupOfStrictSorted _ (pairwiseSortDedup _)
  have hall : ∀ r ∈ allocRows votes conv,
      r.blockKey ∈ sortDedup ((allocRows votes conv).map (fun r => r.blockKey)) := by
    intro r hr
    exact (memSortDedup _ _).mpr (List.mem_map.mpr ⟨r, hr, rfl⟩)
  exact groupSumFilter (sortDedup ((allocRows votes conv).map (fun r => r.blockKey))) hnd
    (allocRows votes conv) (fun r => r.blockKey) f
    (fun b => decide (b.take k = g) && !(sentinelHit 12 b)) hall

theorem aggByDirect (votes : List (VoteRow String)) (conv : List (ConvRow String String))
    (k : ℕ) :
    aggBy k (blockTableStr votes conv) = directAgg k votes conv := by
  have hgs : sortDedup ((blockTableStr votes conv).map (fun r => r.geoid.take k))
      = sortDedup (((allocRows votes conv).filter
          (fun r => !(sentinelHit 12 r.blockKey))).map (fun r => r.blockKey.take k)) := by
    rw [blockTableStrEq, List.map_map]
    exact sortDedupTakeKeys votes conv k
  rw [aggByEq, hgs]
  simp only [directAgg]
  refine List.map_congr_left ?_
  intro g hg
  have hd : (((blockTableStr votes conv).filter
        (fun r => decide (r.geoid.take k = g))).map (fun r => r.dem)).sum
      = ((((allocRows votes conv).filter (fun r => !(sentinelHit 12 r.blockKey))).filter
          (fun r => decide (r.blockKey.take k = g))).map (fun r => r.dem)).sum := by
    rw [blockTableStrEq, List.filter_map, List.map_map]
    exact keySumDirect votes conv k g (fun r => r.dem)
  have hr2 : (((blockTableStr votes conv).filter
        (fun r => decide (r.geoid.take k = g))).map (fun r => r.rep)).sum
      = ((((allocRows votes conv).filter (fun r => !(sentinelHit 12 r.blockKey))).filter
          (fun r => decide (r.blockKey.take k = g))).map (fun r => r.rep)).sum := by
    rw [blockTableStrEq, List.filter_map, List.map_map]
    exact keySumDirect votes conv k g (fun r => r.rep)
  rw [hd, hr2]

/-- C8.  Idempotence of aggregation: for every pair of input tables, the
block level output is the block table, every coarser level of
Blockify.rollup and Graphify.blockify is exactly that block level output
regrouped by the level prefix, and for every prefix length k this regrouped
table coincides with aggregating the raw apportioned sub-unit rows (with the
water sentinel filter applied) directly by their k character key prefix. -/
theorem C8_idempotent :
    ∀ (votes : List (VoteRow String)) (conv : List (ConvRow String String)),
      rollup "block" votes conv = .ok (blockTableStr votes conv) ∧
      rollup "blockgroup" votes conv = .ok (aggBy 12 (blockTableStr votes conv)) ∧
      rollup "tract" votes conv = .ok (aggBy 11 (blockTableStr votes conv)) ∧
      rollup "county" votes conv = .ok (aggBy 5 (blockTableStr votes conv)) ∧
      graphifyBlockify "block" votes conv = .ok (blockTableStr votes conv) ∧
      graphifyBlockify "blockgroup" votes conv = .ok (aggBy 12 (blockTableStr votes conv)) ∧
      graphifyBlockify "tract" votes conv = .ok (aggBy 11 (blockTableStr votes conv)) ∧
      graphifyBlockify "county" votes conv = .ok (aggBy 5 (blockTableStr votes conv)) ∧
      (∀ k : ℕ, aggBy k (blockTableStr votes conv) = directAgg k votes conv) := by
  intro votes conv
  exact ⟨rfl, rfl, rfl, rfl, rfl, rfl, rfl, rfl, fun k => aggByDirect votes conv k⟩

/-- C5 (amended).  Blockify.rollup and Graphify.blockify raise exactly on the
levels outside block, blockgroup, tract, county; Cultivate.blockify however
raises on every level other than blockgroup, including the recognized levels
block, tract and county, contrary to the claim that all three entry points
accept all four. -/
theorem C5_levels :
    ∀ (level : String) (votes : List (VoteRow String)) (conv : List (ConvRow String String))
      (votesN : List (VoteRow ℕ)) (convN : List (ConvRow ℕ ℕ)),
      isErr (rollup level votes conv) = !(decide (level ∈ recognizedLevels)) ∧
      isErr (graphifyBlockify level votes conv) = !(decide (level ∈ recognizedLevels)) ∧
      isErr (cultivateBlockify level votesN convN) = !(decide (level = "blockgroup")) := by
  intro level votes conv votesN convN
  refine ⟨?_, ?_, ?_⟩
  · unfold rollup
    by_cases h1 : level = "block"
    · simp [h1, recognizedLevels, isErr]
    · by_cases h2 : level = "blockgroup"
      · simp [h1, h2, recognizedLevels, isErr]
      · by_cases h3 : level = "tract"
        · simp [h1, h2, h3, recognizedLevels, isErr]
        · by_cases h4 : level = "county"
          · simp [h1, h2, h3, h4, recognizedLevels, isErr]
          · simp [h1, h2, h3, h4, recognizedLevels, isErr]
  · unfold graphifyBlockify
    by_cases h1 : level = "block"
    · simp [h1, recognizedLevels, isErr]
    · by_cases h2 : level = "blockgroup"
      · simp [h1, h2, recognizedLevels, isErr]
      · by_cases h3 : level = "tract"
        · simp [h1, h2, h3, recognizedLevels, isErr]
        · by_cases h4 : level = "county"
          · simp [h1, h2, h3, h4, recognizedLevels, isErr]
          · simp [h1, h2, h3, h4, recognizedLevels, isErr]
  · unfold cultivateBlockify
    by_cases h1 : level = "blockgroup"
    · simp [h1, isErr]
    · simp [h1, isErr]

/-- C5.  The claim fails on Cultivate.blockify: tract is one of the four
recognized levels, yet Cultivate.blockify raises ValueError on it. -/
theorem C5_counterexample :
    cultivateBlockify "tract" [] [] = Except.error "Invalid level" ∧
      "tract" ∈ recognizedLevels :=
  ⟨rfl, by decide⟩

/-- C3 (amended).  Prefix truncation per level: Blockify.rollup and
Graphify.blockify derive the target identifier from the block key by taking
12 characters at level blockgroup, 11 at tract, 5 at county and the key
unchanged at level block; Cultivate.blockify supports only blockgroup and
takes 11 characters of its stringified key (its loader parses the key
numerically, losing the leading zero of the 15 digit code, so on the stored
identifier the block group rule is one character shorter than claimed).  The
last conjunct states that aggBy k groups rows exactly by the first k
characters of their identifier. -/
theorem C3_levels :
    ∀ (votes : List (VoteRow String)) (conv : List (ConvRow String String))
      (votesN : List (VoteRow ℕ)) (convN : List (ConvRow ℕ ℕ)),
      rollup "block" votes conv = .ok (blockTableStr votes conv) ∧
      rollup "blockgroup" votes conv = .ok (aggBy 12 (blockTableStr votes conv)) ∧
      rollup "tract" votes conv = .ok (aggBy 11 (blockTableStr votes conv)) ∧
      rollup "county" votes conv = .ok (aggBy 5 (blockTableStr votes conv)) ∧
      graphifyBlockify "block" votes conv = .ok (blockTableStr votes conv) ∧
      graphifyBlockify "blockgroup" votes conv = .ok (aggBy 12 (blockTableStr votes conv)) ∧
      graphifyBlockify "tract" votes conv = .ok (aggBy 11 (blockTableStr votes conv)) ∧
      graphifyBlockify "county" votes conv = .ok (aggBy 5 (blockTableStr votes conv)) ∧
      cultivateBlockify "blockgroup" votesN convN
        = .ok (aggBy 11 (cultivateBlockTable votesN convN)) ∧
      (∀ (k : ℕ) (rows : List OutRow),
        (aggBy k rows).map (fun r => r.geoid) = sortDedup (rows.map (fun r => r.geoid.take k))) := by
  intro votes conv votesN convN
  refine ⟨rfl, rfl, rfl, rfl, rfl, rfl, rfl, rfl, rfl, ?_⟩
  intro k rows
  rw [aggByEq, List.map_map]
  exact List.map_id _

set_option maxRecDepth 4000 in
set_option maxHeartbeats 1000000 in
/-- C3.  The claim fails on Cultivate.blockify: the two 15 character block
keys 111111111119100 and 111111111112100 differ in their first 12 characters
yet Cultivate.blockify at level blockgroup merges them into the single
11 character group 11111111111, so the grouping is not by the first 12
characters of the identifier. -/
theorem C3_counterexample :
    cultivateBlockify "blockgroup" votesC3 convC3
        = Except.ok [⟨"11111111111", 4, 4, 0⟩] ∧
      (Nat.repr 111111111119100).take 12 ≠ (Nat.repr 111111111112100).take 12 := by
  have ha : allocRows votesC3 convC3
      = [⟨1, 111111111119100, 2, 0⟩, ⟨1, 111111111112100, 2, 0⟩] := by
    have hr1 : List.range 2 = [0, 1] := rfl
    have hr2 : rows2 votesC3 convC3
        = [⟨1, 111111111119100, some 1, some 2, some 4, some 0⟩,
           ⟨1, 111111111112100, some 1, some 2, some 4, some 0⟩] := by
      decide
    have hdm1 : demRaw (⟨1, 111111111119100, some 1, some 2, some 4, some 0⟩ : MRow ℕ ℕ)
        = some (2 : ℚ) := by
      unfold demRaw rawDiv
      norm_num
    have hdm2 : demRaw (⟨1, 111111111112100, some 1, some 2, some 4, some 0⟩ : MRow ℕ ℕ)
        = some (2 : ℚ) := by
      unfold demRaw rawDiv
      norm_num
    have hrm1 : repRaw (⟨1, 111111111119100, some 1, some 2, some 4, some 0⟩ : MRow ℕ ℕ)
        = some 0 := by
      unfold repRaw rawDiv
      norm_num
    have hrm2 : repRaw (⟨1, 111111111112100, some 1, some 2, some 4, some 0⟩ : MRow ℕ ℕ)
        = some 0 := by
      unfold repRaw rawDiv
      norm_num
    have hh2 : hamiltonFloor [(2 : ℚ), 2] = [2, 2] := by
      have h := hamiltonFloorIntCast [2, 2]
      norm_num at h
      exact h
    have hh0 : hamiltonFloor [(0 : ℚ), 0] = [0, 0] := by
      have h := hamiltonFloorIntCast [0, 0]
      norm_num at h
      exact h
    unfold allocRows
    rw [hr2]
    simp [hr1, grpIdx, transformCol, posIn, hamiltonAt, hamiltonFloorOpt,
      hdm1, hdm2, hrm1, hrm2, hh2, hh0]
  refine ⟨?_, by decide⟩
  have hstep : cultivateBlockify "blockgroup" votesC3 convC3
      = Except.ok (aggBy 11 (cultivateBlockTable votesC3 convC3)) := rfl
  rw [hstep]
  have hbt0 : cultivateBlockTable votesC3 convC3
      = [⟨"111111111112100", 2, 2, 0⟩, ⟨"111111111119100", 2, 2, 0⟩] := by
    simp only [cultivateBlockTable, blockTableG, ha]
    have hk : sortDedup (List.map (fun r : ARow ℕ ℕ => r.blockKey)
        ([⟨1, 111111111119100, 2, 0⟩, ⟨1, 111111111112100, 2, 0⟩] : List (ARow ℕ ℕ)))
        = [111111111112100, 111111111119100] := by decide
    rw [hk]
    have hfm : List.filter (fun row => !sentinelHit 11 row.geoid)
        (List.map (fun b : ℕ =>
          OutRow.mk (Nat.repr b)
            ((((([⟨1, 111111111119100, 2, 0⟩, ⟨1, 111111111112100, 2, 0⟩] :
                List (ARow ℕ ℕ)).filter (fun r => decide (r.blockKey = b))).map
                  (fun r => r.dem)).sum)
              + (((([⟨1, 111111111119100, 2, 0⟩, ⟨1, 111111111112100, 2, 0⟩] :
                List (ARow ℕ ℕ)).filter (fun r => decide (r.blockKey = b))).map
                  (fun r => r.rep)).sum))
            (((([⟨1, 111111111119100, 2, 0⟩, ⟨1, 111111111112100, 2, 0⟩] :
                List (ARow ℕ ℕ)).filter (fun r => decide (r.blockKey = b))).map
                  (fun r => r.dem)).sum)
            (((([⟨1, 111111111119100, 2, 0⟩, ⟨1, 111111111112100, 2, 0⟩] :
                List (ARow ℕ ℕ)).filter (fun r => decide (r.blockKey = b))).map
                  (fun r => r.rep)).sum))
          [111111111112100, 111111111119100])
        = [⟨"111111111112100", 2, 2, 0⟩, ⟨"111111111119100", 2, 2, 0⟩] := by decide
    rw [hfm]
    refine sortOrdPair _ _ _ ?_
    show ("111111111112100" : String) ≤ "111111111119100"
    rw [String.le_iff_toList_le]
    decide
  have hbt : aggBy 11 (cultivateBlockTable votesC3 convC3) = [⟨"11111111111", 4, 4, 0⟩] := by
    rw [hbt0, aggByEq]
    have ht : List.map (fun r : OutRow => r.geoid.take 11)
        ([⟨"111111111112100", 2, 2, 0⟩, ⟨"111111111119100", 2, 2, 0⟩] : List OutRow)
        = ["11111111111", "11111111111"] := by decide
    rw [ht, sortDedupPairEq]
    decide
  rw [hbt]

/-- C4 (amended).  Sentinel exclusion: Blockify.rollup and Graphify.blockify
drop every block whose 12 character block group code ends in the digit 0
before any level aggregation, and each coarser aggregate equals the direct
aggregation of the sentinel-filtered apportioned rows, so an excluded block
contributes to no aggregate.  Cultivate.blockify applies the same filter to
the first 11 characters of its stringified key (the block group code with
its leading zero lost), not to a 12 character code. -/
theorem C4_sentinel :
    ∀ (votes : List (VoteRow String)) (conv : List (ConvRow String String))
      (votesN : List (VoteRow ℕ)) (convN : List (ConvRow ℕ ℕ)),
      (blockTableStr votes conv).filter (fun row => sentinelHit 12 row.geoid) = [] ∧
      (cultivateBlockTable votesN convN).filter (fun row => sentinelHit 11 row.geoid) = [] ∧
      (∀ k : ℕ, aggBy k (blockTableStr votes conv) = directAgg k votes conv) := by
  intro votes conv votesN convN
  refine ⟨?_, ?_, fun k => aggByDirect votes conv k⟩
  · rw [List.filter_eq_nil_iff]
    intro row hrow
    simp only [blockTableStr, blockTableG] at hrow
    rw [memSortOrd] at hrow
    rcases List.mem_filter.mp hrow with ⟨_, h2⟩
    simp at h2
    simp [h2]
  · rw [List.filter_eq_nil_iff]
    intro row hrow
    simp only [cultivateBlockTable, blockTableG] at hrow
    rw [memSortOrd] at hrow
    rcases List.mem_filter.mp hrow with ⟨_, h2⟩
    simp at h2
    simp [h2]

set_option maxRecDepth 4000 in
set_option maxHeartbeats 1000000 in
/-- C4.  The claim fails on Cultivate.blockify: the 15 character block key
111111111110222 has a 12 character block group code ending in the sentinel
digit 0, yet its votes appear in the Cultivate.blockify output aggregate. -/
theorem C4_counterexample :
    sentinelHit 12 (Nat.repr 111111111110222) = true ∧
      cultivateBlockify "blockgroup" votesC4 convC4
        = Except.ok [⟨"11111111111", 2, 2, 0⟩] := by
  refine ⟨by decide, ?_⟩
  have ha : allocRows votesC4 convC4 = [⟨1, 111111111110222, 2, 0⟩] := by
    have hr1 : List.range 1 = [0] := rfl
    have hr2 : rows2 votesC4 convC4
        = [⟨1, 111111111110222, some 1, some 1, some 2, some 0⟩] := by
      decide
    have hdm : demRaw (⟨1, 111111111110222, some 1, some 1, some 2, some 0⟩ : MRow ℕ ℕ)
        = some (2 : ℚ) := by
      unfold demRaw rawDiv
      norm_num
    have hrm : repRaw (⟨1, 111111111110222, some 1, some 1, some 2, some 0⟩ : MRow ℕ ℕ)
        = some 0 := by
      unfold repRaw rawDiv
      norm_num
    have hh2 : hamiltonFloor [(2 : ℚ)] = [2] := by
      have h := hamiltonFloorIntCast [2]
      norm_num at h
      exact h
    have hh0 : hamiltonFloor [(0 : ℚ)] = [0] := by
      have h := hamiltonFloorIntCast [0]
      norm_num at h
      exact h
    unfold allocRows
    rw [hr2]
    simp [hr1, grpIdx, transformCol, posIn, hamiltonAt, hamiltonFloorOpt, hdm, hrm, hh2, hh0]
  simp only [cultivateBlockify, cultivateBlockTable, blockTableG, ha]
  decide

theorem sortOrdGeoidSorted (l : List OutRow) :
    ((sortOrd (fun r => r.geoid) l).map (fun r => r.geoid)).Pairwise (fun a b => a ≤ b) :=
  List.Pairwise.map _ (fun _ _ h => h) (pairwiseSortOrd _ l)

theorem blockTableGOk {K B : Type} [DecidableEq K] [Inhabited K] [Inhabited B] [LinearOrder B]
    [DecidableEq B]
    (toStr : B → String) (senLen : ℕ)
    (votes : List (VoteRow K)) (conv : List (ConvRow K B)) :
    ((blockTableG toStr senLen votes conv).map (fun r => r.geoid)).Pairwise (fun a b => a ≤ b)
      ∧ ∀ row ∈ blockTableG toStr senLen votes conv, row.tot = row.dem + row.rep := by
  constructor
  · simp only [blockTableG]
    exact sortOrdGeoidSorted _
  · intro row hrow
    simp only [blockTableG] at hrow
    rw [memSortOrd] at hrow
    rcases List.mem_filter.mp hrow with ⟨h1, _⟩
    rcases List.mem_map.mp h1 with ⟨b, _, hb⟩
    rw [← hb]

theorem aggByOk (k : ℕ) (rows : List OutRow) :
    ((aggBy k rows).map (fun r => r.geoid)).Pairwise (fun a b => a ≤ b)
      ∧ ∀ row ∈ aggBy k rows, row.tot = row.dem + row.rep := by
  constructor
  · simp only [aggBy]
    exact sortOrdGeoidSorted _
  · intro row hrow
    rw [aggByEq] at hrow
    rcases List.mem_map.mp hrow with ⟨g, _, hg⟩
    rw [← hg]

/-- C9.  Output ordering and derived total: every table returned by
Blockify.rollup, Graphify.blockify or Cultivate.blockify is sorted ascending
(lexicographically) on its target identifier column, and the tot column of
every returned row is exactly dem + rep, never computed independently. -/
theorem C9_sorted :
    ∀ (level : String) (votes : List (VoteRow String)) (conv : List (ConvRow String String))
      (votesN : List (VoteRow ℕ)) (convN : List (ConvRow ℕ ℕ)),
      (∀ out, rollup level votes conv = Except.ok out →
        ((out.map (fun r => r.geoid)).Pairwise (fun a b => a ≤ b) ∧
          ∀ row ∈ out, row.tot = row.dem + row.rep)) ∧
      (∀ out, graphifyBlockify level votes conv = Except.ok out →
        ((out.map (fun r => r.geoid)).Pairwise (fun a b => a ≤ b) ∧
          ∀ row ∈ out, row.tot = row.dem + row.rep)) ∧
      (∀ out, cultivateBlockify level votesN convN = Except.ok out →
        ((out.map (fun r => r.geoid)).Pairwise (fun a b => a ≤ b) ∧
          ∀ row ∈ out, row.tot = row.dem + row.rep)) := by
  intro level votes conv votesN convN
  refine ⟨?_, ?_, ?_⟩
  · intro out hout
    unfold rollup at hout
    split_ifs at hout
    · rw [← Except.ok.inj hout]
      exact blockTableGOk _ _ votes conv
    · rw [← Except.ok.inj hout]
      exact aggByOk 12 _
    · rw [← Except.ok.inj hout]
      exact aggByOk 11 _
    · rw [← Except.ok.inj hout]
      exact aggByOk 5 _
  · intro out hout
    unfold graphifyBlockify at hout
    split_ifs at hout
    · rw [← Except.ok.inj hout]
      exact blockTableGOk _ _ votes conv
    · rw [← Except.ok.inj hout]
      exact aggByOk 12 _
    · rw [← Except.ok.inj hout]
      exact aggByOk 11 _
    · rw [← Except.ok.inj hout]
      exact aggByOk 5 _
  · intro out hout
    unfold cultivateBlockify at hout
    split_ifs at hout
    · rw [← Except.ok.inj hout]
      exact aggByOk 11 _

theorem posRegSome {K B : Type} (r : MRow K B) (h : posReg r = true) :
    ∃ t, r.srtotreg = some t ∧ 0 < t := by
  unfold posReg at h
  cases hst : r.srtotreg with
  | none =>
      rw [hst] at h
      exact absurd h (by simp)
  | some t =>
      rw [hst] at h
      exact ⟨t, rfl, of_decide_eq_true h⟩

theorem keepRowParts {K B : Type} (r : MRow K B) (h : keepRow r = true) :
    r.blkreg.isSome = true ∧ r.srtotreg.isSome = true ∧
      r.dem.isSome = true ∧ r.rep.isSome = true := by
  unfold keepRow at h
  simp only [Bool.and_eq_true] at h
  exact ⟨h.1.1.1, h.1.1.2, h.1.2, h.2⟩

/-- C10.  Totality of hamilton_floor at its call sites: every per-precinct
series the pipeline passes to hamilton_floor consists only of present
(finite, non-NaN) values, because the dropna and replace steps precede the
grouping; hamilton_floor therefore never reaches the branch that would raise
on a partially missing series.  Under the data-model invariant that vote
counts and BLKREG weights are non-negative, every value in such a series is
also non-negative. -/
theorem C10_hamilton_total {K B : Type} [DecidableEq K]
    (votes : List (VoteRow K)) (conv : List (ConvRow K B)) (p : K) :
    (((rows2 votes conv).filter (fun r => decide (r.srprec = p))).map demRaw).all
        (fun v => v.isSome) = true ∧
      (((rows2 votes conv).filter (fun r => decide (r.srprec = p))).map repRaw).all
        (fun v => v.isSome) = true ∧
      hamiltonFloorOpt (((rows2 votes conv).filter
        (fun r => decide (r.srprec = p))).map demRaw) ≠ none ∧
      hamiltonFloorOpt (((rows2 votes conv).filter
        (fun r => decide (r.srprec = p))).map repRaw) ≠ none ∧
      ((∀ v ∈ votes, 0 ≤ v.dem ∧ 0 ≤ v.rep) →
        (∀ c ∈ conv, 0 ≤ c.blkreg.getD 0) →
        ∀ r ∈ (rows2 votes conv).filter (fun r => decide (r.srprec = p)),
          0 ≤ (demRaw r).getD 0 ∧ 0 ≤ (repRaw r).getD 0) := by
  have hmemrows : ∀ r ∈ (rows2 votes conv).filter (fun r => decide (r.srprec = p)),
      r ∈ rows2 votes conv := by
    intro r hr
    exact (List.mem_filter.mp hr).1
  have hdemSome : (((rows2 votes conv).filter (fun r => decide (r.srprec = p))).map demRaw).all
      (fun v => v.isSome) = true := by
    rw [List.all_eq_true]
    intro v hv
    rcases List.mem_map.mp hv with ⟨r, hr, hrv⟩
    exact hrv ▸ (rows2Mem votes conv r (hmemrows r hr)).2.2.2.1
  have hrepSome : (((rows2 votes conv).filter (fun r => decide (r.srprec = p))).map repRaw).all
      (fun v => v.isSome) = true := by
    rw [List.all_eq_true]
    intro v hv
    rcases List.mem_map.mp hv with ⟨r, hr, hrv⟩
    exact hrv ▸ (rows2Mem votes conv r (hmemrows r hr)).2.2.2.2
  refine ⟨hdemSome, hrepSome, hamiltonFloorOptNeNone _ (Or.inr hdemSome),
    hamiltonFloorOptNeNone _ (Or.inr hrepSome), ?_⟩
  intro hvotes hconv r hr
  rcases rows2Mem votes conv r (hmemrows r hr) with ⟨hml, hkeep, hpos, _, _⟩
  rcases posRegSome r hpos with ⟨t, hst, ht⟩
  rcases keepRowParts r hkeep with ⟨_, _, hdemS, _⟩
  have hdne : r.dem ≠ none := by
    intro h0
    rw [h0] at hdemS
    exact absurd hdemS (by simp)
  rcases mergeLeftVote conv votes r hml with ⟨h1, _⟩ | ⟨v, hv1, _, hv3, hv4⟩
  · exact absurd h1 hdne
  · rcases mergeLeftConv conv votes r hml with ⟨c, hc1, _, _, hcb, _⟩
    have hb : 0 ≤ r.blkreg.getD 0 := by
      rw [hcb]
      exact hconv c hc1
    have hdv : 0 ≤ v.dem := (hvotes v hv1).1
    have hrv : 0 ≤ v.rep := (hvotes v hv1).2
    have htne : t ≠ 0 := ne_of_gt ht
    constructor
    · unfold demRaw rawDiv
      rw [hv3, hst]
      simp only [Option.getD_some]
      rw [if_neg htne]
      simp only [Option.getD_some]
      refine div_nonneg (mul_nonneg ?_ hb) (le_of_lt ht)
      exact_mod_cast hdv
    · unfold repRaw rawDiv
      rw [hv4, hst]
      simp only [Option.getD_some]
      rw [if_neg htne]
      simp only [Option.getD_some]
      refine div_nonneg (mul_nonneg ?_ hb) (le_of_lt ht)
      exact_mod_cast hrv

/-- Witness for C10: on the concrete tables the dem series of precinct P is
fully present, hamilton_floor does not fail on it, and its values are
non-negative. -/
theorem C10_hamilton_total_witness :
    hamiltonFloorOpt (((rows2 votesW convW).filter
        (fun r => decide (r.srprec = "P"))).map demRaw) ≠ none ∧
      (∀ r ∈ (rows2 votesW convW).filter (fun r => decide (r.srprec = "P")),
        0 ≤ (demRaw r).getD 0 ∧ 0 ≤ (repRaw r).getD 0) :=
  ⟨(C10_hamilton_total votesW convW "P").2.2.1,
   (C10_hamilton_total votesW convW "P").2.2.2.2 (by decide) (by decide)⟩

/-- C2 (amended).  Hamilton apportionment contract: on a group of
non-negative values hamilton_floor returns one integer per element, each
equal to the floor of its value or one more, all non-negative; the sum of
the outputs is the sum of the floors plus round(sum of remainders) with the
Python half-to-even round, which equals round(sum of the inputs) whenever
the remainder sum is not exactly half way between two integers.  The claimed
unconditional equality sum(output) = round(sum(input)) fails exactly in that
half-integer tie case (see the counterexample). -/
theorem C2_contract (qs : List ℚ) (hnn : ∀ q ∈ qs, 0 ≤ q) :
    (hamiltonFloor qs).length = qs.length ∧
      (∀ i, i < qs.length →
        ((hamiltonFloor qs).getD i 0 = ⌊qs.getD i 0⌋ ∨
          (hamiltonFloor qs).getD i 0 = ⌊qs.getD i 0⌋ + 1)) ∧
      (∀ i, i < qs.length → 0 ≤ (hamiltonFloor qs).getD i 0) ∧
      (hamiltonFloor qs).sum = floorSum qs + deficit qs ∧
      (Int.fract (fracSum qs) ≠ 1/2 → (hamiltonFloor qs).sum = roundHalfEven qs.sum) := by
  refine ⟨hamiltonFloorLength qs, ?_, ?_, hamiltonFloorSum qs, hamiltonFloorSumRound qs⟩
  · intro i hi
    rw [hamiltonFloorGetD qs i hi]
    split_ifs <;> omega
  · intro i hi
    rw [hamiltonFloorGetD qs i hi]
    have h0 : 0 ≤ ⌊qs.getD i 0⌋ := Int.floor_nonneg.mpr (hnn _ (getDMemOfLt qs 0 i hi))
    split_ifs <;> omega

/-- C2.  The claimed contract sum(output) = round(sum(input)) fails on the
code at the single-element group [3/2]: the remainder sum 1/2 rounds to 0
(Python rounds half to even), so hamilton_floor returns [1] with total 1,
while round(3/2) = 2. -/
theorem C2_counterexample :
    (hamiltonFloor qsC2).sum = 1 ∧ roundHalfEven (qsC2.sum) = 2 ∧
      (hamiltonFloor qsC2).sum ≠ roundHalfEven (qsC2.sum) := by
  have hfl : ⌊(3/2 : ℚ)⌋ = 1 := by norm_num [Int.floor_eq_iff]
  have hfr : Int.fract (3/2 : ℚ) = 1/2 := by
    unfold Int.fract
    rw [hfl]
    norm_num
  have hfs : fracSum qsC2 = 1/2 := by
    simp [fracSum, qsC2, hfr]
  have hfl0 : ⌊(1/2 : ℚ)⌋ = 0 := by norm_num [Int.floor_eq_iff]
  have hrd : deficit qsC2 = 0 := by
    unfold deficit roundHalfEven
    rw [hfs, hfl0]
    norm_num
  have h1 : hamiltonFloor qsC2 = [1] := by
    have hr1 : List.range 1 = [0] := rfl
    unfold hamiltonFloor
    rw [hrd]
    simp [qsC2, hr1, hfl]
  have h2 : roundHalfEven (qsC2.sum) = 2 := by
    have hsum : qsC2.sum = 3/2 := by
      simp [qsC2]
    unfold roundHalfEven
    rw [hsum, hfl]
    norm_num
  refine ⟨by rw [h1]; rfl, h2, by rw [h1, h2]; decide⟩

/-- Witness for C2: the group [1/4, 3/4] is non-negative with remainder sum
1, so the full amended contract holds there, including the round-sum
equality. -/
theorem C2_contract_witness :
    (∀ q ∈ qsW2, 0 ≤ q) ∧
      ((hamiltonFloor qsW2).length = qsW2.length ∧
        (∀ i, i < qsW2.length →
          ((hamiltonFloor qsW2).getD i 0 = ⌊qsW2.getD i 0⌋ ∨
            (hamiltonFloor qsW2).getD i 0 = ⌊qsW2.getD i 0⌋ + 1)) ∧
        (∀ i, i < qsW2.length → 0 ≤ (hamiltonFloor qsW2).getD i 0) ∧
        (hamiltonFloor qsW2).sum = floorSum qsW2 + deficit qsW2 ∧
        (Int.fract (fracSum qsW2) ≠ 1/2 →
          (hamiltonFloor qsW2).sum = roundHalfEven qsW2.sum)) :=
  ⟨by norm_num [qsW2], C2_contract qsW2 (by norm_num [qsW2])⟩

/-- C6.  Deterministic tie-break: when the deficit d is positive, a row gets
floor + 1 exactly when fewer than d rows beat it, the number of incremented
rows is exactly d, and row i is ranked before row j exactly when i has the
strictly larger remainder or an equal remainder and the smaller position, so
with tied remainders at the selection boundary the earliest rows in the
group's stable index order win; the selection is a function of the values
and positions alone, hence identical on identical inputs. -/
theorem C6_tiebreak (qs : List ℚ) (hd : 0 < deficit qs) :
    (∀ i, i < qs.length →
      ((hamiltonFloor qs).getD i 0 = ⌊qs.getD i 0⌋ + 1 ↔
        (hrank (fun j => Int.fract (qs.getD j 0)) qs.length i : ℤ) < deficit qs)) ∧
      ((Finset.range qs.length).filter
        (fun i => (hrank (fun j => Int.fract (qs.getD j 0)) qs.length i : ℤ) < deficit qs)).card
        = (deficit qs).toNat ∧
      (∀ i j, i < qs.length → j < qs.length →
        (hrank (fun j' => Int.fract (qs.getD j' 0)) qs.length i
            < hrank (fun j' => Int.fract (qs.getD j' 0)) qs.length j
          ↔ beats (fun j' => Int.fract (qs.getD j' 0)) i j)) := by
  refine ⟨?_, ?_, ?_⟩
  · intro i hi
    rw [hamiltonFloorGetD qs i hi]
    constructor
    · intro h
      by_contra hc
      rw [if_neg (fun hand => hc hand.2)] at h
      omega
    · intro h
      rw [if_pos ⟨hd, h⟩]
  · have hcong : ∀ i ∈ Finset.range qs.length,
        ((hrank (fun j => Int.fract (qs.getD j 0)) qs.length i : ℤ) < deficit qs
          ↔ hrank (fun j => Int.fract (qs.getD j 0)) qs.length i < (deficit qs).toNat) := by
      intro i _
      omega
    rw [Finset.filter_congr hcong,
      hrankCount (fun j => Int.fract (qs.getD j 0)) qs.length (deficit qs).toNat]
    have h1 := deficitLeLength qs
    have h3 : (deficit qs).toNat ≤ qs.length := by omega
    rw [min_eq_left h3]
  · intro i j hi hj
    constructor
    · intro h
      by_cases hij : i = j
      · rw [hij] at h
        exact absurd h (lt_irrefl _)
      · rcases beatsTotal (fun j' => Int.fract (qs.getD j' 0)) hij with hb | hb
        · exact hb
        · exact absurd (hrankLtHrank (fun j' => Int.fract (qs.getD j' 0)) qs.length hj hb)
            (by omega)
    · intro h
      exact hrankLtHrank (fun j' => Int.fract (qs.getD j' 0)) qs.length hi h

/-- Witness for C6: the group [1/2, 1/2, 1/2] has deficit 2, so the first
two of the three tied rows receive the extra unit. -/
theorem C6_tiebreak_witness :
    0 < deficit qsC6 ∧
      ((∀ i, i < qsC6.length →
        ((hamiltonFloor qsC6).getD i 0 = ⌊qsC6.getD i 0⌋ + 1 ↔
          (hrank (fun j => Int.fract (qsC6.getD j 0)) qsC6.length i : ℤ) < deficit qsC6)) ∧
      ((Finset.range qsC6.length).filter
        (fun i => (hrank (fun j => Int.fract (qsC6.getD j 0)) qsC6.length i : ℤ)
          < deficit qsC6)).card = (deficit qsC6).toNat ∧
      (∀ i j, i < qsC6.length → j < qsC6.length →
        (hrank (fun j' => Int.fract (qsC6.getD j' 0)) qsC6.length i
            < hrank (fun j' => Int.fract (qsC6.getD j' 0)) qsC6.length j
          ↔ beats (fun j' => Int.fract (qsC6.getD j' 0)) i j))) := by
  have hfl0 : ⌊(1/2 : ℚ)⌋ = 0 := by norm_num [Int.floor_eq_iff]
  have hfr : Int.fract (1/2 : ℚ) = 1/2 := by
    unfold Int.fract
    rw [hfl0]
    norm_num
  have hfs : fracSum qsC6 = 3/2 := by
    simp only [fracSum, qsC6, List.map_cons, List.map_nil, List.sum_cons, List.sum_nil,
      add_zero]
    rw [hfr]
    norm_num
  have hfl32 : ⌊(3/2 : ℚ)⌋ = 1 := by norm_num [Int.floor_eq_iff]
  have hd : 0 < deficit qsC6 := by
    unfold deficit roundHalfEven
    rw [hfs, hfl32]
    norm_num
  exact ⟨hd, C6_tiebreak qsC6 hd⟩

set_option maxRecDepth 4000 in
set_option maxHeartbeats 1000000 in
/-- Witness for C9: the concrete county level run returns rows sorted
ascending by identifier with tot equal to dem + rep. -/
theorem C9_sorted_witness :
    (([⟨"06001", 3, 2, 1⟩, ⟨"06111", 3, 2, 1⟩] : List OutRow).map
        (fun r => r.geoid)).Pairwise (fun a b => a ≤ b) ∧
      ∀ row ∈ ([⟨"06001", 3, 2, 1⟩, ⟨"06111", 3, 2, 1⟩] : List OutRow),
        row.tot = row.dem + row.rep :=
  (C9_sorted "county" votesW9 convW9 [] []).1 [⟨"06001", 3, 2, 1⟩, ⟨"06111", 3, 2, 1⟩]
    (by
      have ha : allocRows votesW9 convW9 =
          [⟨"P", "060010001001001", 2, 1⟩, ⟨"P", "061110002002002", 2, 1⟩] := by
        have hr1 : List.range 2 = [0, 1] := rfl
        have hr2 : rows2 votesW9 convW9
            = [⟨"P", "060010001001001", some 1, some 2, some 4, some 2⟩,
               ⟨"P", "061110002002002", some 1, some 2, some 4, some 2⟩] := by
          decide
        have hdm1 : demRaw (⟨"P", "060010001001001", some 1, some 2, some 4, some 2⟩ :
            MRow String String) = some (2 : ℚ) := by
          unfold demRaw rawDiv
          norm_num
        have hdm2 : demRaw (⟨"P", "061110002002002", some 1, some 2, some 4, some 2⟩ :
            MRow String String) = some (2 : ℚ) := by
          unfold demRaw rawDiv
          norm_num
        have hrm1 : repRaw (⟨"P", "060010001001001", some 1, some 2, some 4, some 2⟩ :
            MRow String String) = some (1 : ℚ) := by
          unfold repRaw rawDiv
          norm_num
        have hrm2 : repRaw (⟨"P", "061110002002002", some 1, some 2, some 4, some 2⟩ :
            MRow String String) = some (1 : ℚ) := by
          unfold repRaw rawDiv
          norm_num
        have hh2 : hamiltonFloor [(2 : ℚ), 2] = [2, 2] := by
          have h := hamiltonFloorIntCast [2, 2]
          norm_num at h
          exact h
        have hh1 : hamiltonFloor [(1 : ℚ), 1] = [1, 1] := by
          have h := hamiltonFloorIntCast [1, 1]
          norm_num at h
          exact h
        unfold allocRows
        rw [hr2]
        simp [hr1, grpIdx, transformCol, posIn, hamiltonAt, hamiltonFloorOpt,
          hdm1, hdm2, hrm1, hrm2, hh2, hh1]
      have hlt1 : ("060010001001001" : String) < "061110002002002" := by
        rw [String.lt_iff_toList_lt]
        decide
      have hlt2 : ("06001" : String) < "06111" := by
        rw [String.lt_iff_toList_lt]
        decide
      have hstep : rollup "county" votesW9 convW9
          = Except.ok (aggBy 5 (blockTableStr votesW9 convW9)) := rfl
      have hbt : blockTableStr votesW9 convW9
          = [⟨"060010001001001", 3, 2, 1⟩, ⟨"061110002002002", 3, 2, 1⟩] := by
        rw [blockTableStrEq, ha]
        have hk : List.map (fun r : ARow String String => r.blockKey)
            ([⟨"P", "060010001001001", 2, 1⟩, ⟨"P", "061110002002002", 2, 1⟩] :
              List (ARow String String))
            = ["060010001001001", "061110002002002"] := rfl
        rw [hk, sortDedupPairLt _ _ hlt1]
        decide
      have hagg : aggBy 5
          ([⟨"060010001001001", 3, 2, 1⟩, ⟨"061110002002002", 3, 2, 1⟩] : List OutRow)
          = [⟨"06001", 3, 2, 1⟩, ⟨"06111", 3, 2, 1⟩] := by
        rw [aggByEq]
        have ht : List.map (fun r : OutRow => r.geoid.take 5)
            ([⟨"060010001001001", 3, 2, 1⟩, ⟨"061110002002002", 3, 2, 1⟩] : List OutRow)
            = ["06001", "06111"] := by decide
        rw [ht, sortDedupPairLt _ _ hlt2]
        decide
      rw [hstep, hbt, hagg])
